import Mathlib

/-!
# execute-python-in-pod: a shallow embedding of `main.go`

The program creates one pod that runs a Python script, polls the pod until it
reaches a terminal phase, reads its log stream and prints it.

The embedding has three layers.

* Go strings are Lean `String`s; the unit of the model is the `Char`, which
  plays the role of the Go byte (the only bytes the code inspects are `/` and
  `.`).
* The functions of `path/filepath` (Unix build) that `main.go` calls are
  transcribed from the Go standard library: `Clean`, `Dir`, `Base`, `Join`,
  `IsAbs`, `Abs`.
* Everything outside the process (the operating system, the kubeconfig loader,
  the cluster) is a `World`: a record of answers, indexed by the number of
  earlier calls of the same operation.  The functions of `main.go` thread a
  `Trace` of the external calls they make, in order.

A Go pointer that may be nil is an `Option`, and a Go result pair `(value,
error)` is a pair whose error is `none` for nil.  A call through a nil
`*kubernetes.Clientset` is a run-time panic, `Outcome.nilDeref`.  The polling
loop has no bound in the source; here it takes a bound on its iterations and
answers `none` while it is still running.

The file has four parts: the embedding, the vocabulary of the statements with
sample worlds, lemmas, and one theorem for each property of the specification
that is settled here, C1 to C10.
-/

namespace PodRunner

/-! ## path/filepath (Unix) -/

/-- `os.IsPathSeparator` on Unix. -/
def IsPathSeparator (c : Char) : Bool := c = '/'

/-- `filepath.Separator` on Unix. -/
def Separator : Char := '/'

/-- The inner loop of the `..` case of `Clean`, after the first `out.w--`:
`for out.w > dotdot && !os.IsPathSeparator(out.index(out.w)) { out.w-- }`.
The buffer is held latest byte first, so `out.w` is its length; `c` is the byte
at index `out.w`, the one given up last. -/
def backtrackLoop (dotdot : Nat) : Char → List Char → List Char
  | _, [] => []
  | c, d :: out =>
    if dotdot < (d :: out).length ∧ IsPathSeparator c = false then
      backtrackLoop dotdot d out
    else d :: out

/-- The `out.w > dotdot` branch of the `..` case of `Clean`: remove to the last
separator. -/
def backtrack (dotdot : Nat) : List Char → List Char
  | [] => []
  | c :: out => backtrackLoop dotdot c out

/-- The `..` case of the loop of `Clean`, on the pair (buffer, `dotdot`). -/
def dotdotElem (rooted : Bool) (st : List Char × Nat) : List Char × Nat :=
  if st.2 < st.1.length then
    (backtrack st.2 st.1, st.2)
  else if rooted = false then
    let out1 := if 0 < st.1.length then Separator :: st.1 else st.1
    let out2 := '.' :: '.' :: out1
    (out2, out2.length)
  else st

/-- The default case of the loop of `Clean`: a real path element `elem` is
copied to the buffer, after a separator when the buffer already holds an
element. -/
def realElem (rooted : Bool) (elem : List Char) (st : List Char × Nat) : List Char × Nat :=
  let out1 :=
    if (rooted = true ∧ st.1.length ≠ 1) ∨ (rooted = false ∧ st.1.length ≠ 0) then
      Separator :: st.1
    else st.1
  (elem.reverse ++ out1, st.2)

/-- The bytes before the next separator. -/
def elemHead (path : List Char) : List Char := path.takeWhile (fun c => !IsPathSeparator c)

/-- The bytes from the next separator on. -/
def elemRest (path : List Char) : List Char := path.dropWhile (fun c => !IsPathSeparator c)

/-- The loop `for r < n { switch ... }` of `Clean`.  `path` is `path[r:]`; the
first argument bounds the number of iterations, each of which consumes at least
one byte. -/
def cleanLoop (rooted : Bool) : Nat → List Char → List Char × Nat → List Char × Nat
  | 0, _, st => st
  | _ + 1, [], st => st
  | fuel + 1, c :: rest, st =>
    if IsPathSeparator c then
      -- empty path element
      cleanLoop rooted fuel rest st
    else if c = '.' ∧ (rest = [] ∨ rest.head?.map IsPathSeparator = some true) then
      -- . element
      cleanLoop rooted fuel rest st
    else if c = '.' ∧ rest.head? = some '.' ∧
        (rest.tail = [] ∨ rest.tail.head?.map IsPathSeparator = some true) then
      -- .. element: remove to last separator
      cleanLoop rooted fuel rest.tail (dotdotElem rooted st)
    else
      -- real path element
      cleanLoop rooted fuel (elemRest (c :: rest)) (realElem rooted (elemHead (c :: rest)) st)

/-- The body of `filepath.Clean` (Unix: no volume name) on the bytes of the
path. -/
def cleanBytes (path : List Char) : List Char :=
  if path = [] then ['.'] else
  let rooted := path.head?.map IsPathSeparator = some true
  let st :=
    if rooted then cleanLoop true path.length path.tail ([Separator], 1)
    else cleanLoop false path.length path ([], 0)
  -- Turn empty string into "."
  if st.1.length = 0 then ['.'] else st.1.reverse

/-- The function `filepath.Clean`. -/
def Clean (path : String) : String := String.mk (cleanBytes path.data)

/-- The function `filepath.IsAbs` (Unix): `strings.HasPrefix(path, "/")`. -/
def IsAbs (path : String) : Bool := path.data.head? = some '/'

/-- The prefix `path[:i+1]` of `Dir`, where `i` is the index of the last
separator (`-1` when there is none). -/
def dirPart (path : List Char) : List Char :=
  (path.reverse.dropWhile (fun c => !IsPathSeparator c)).reverse

/-- The function `filepath.Dir` (Unix). -/
def Dir (path : String) : String := String.mk (cleanBytes (dirPart path.data))

/-- The body of `filepath.Base` (Unix) on the bytes of the path. -/
def baseBytes (path : List Char) : List Char :=
  if path = [] then ['.'] else
  -- Strip trailing slashes.
  let stripped := path.reverse.dropWhile IsPathSeparator
  -- Find the last element
  let last := (stripped.takeWhile (fun c => !IsPathSeparator c)).reverse
  -- If empty now, it had only slashes.
  if last = [] then [Separator] else last

/-- The function `filepath.Base`. -/
def Base (path : String) : String := String.mk (baseBytes path.data)

/-- The function `filepath.Join` (Unix): the elements from the first non-empty
one on, joined with separators and cleaned. -/
def Join (elem : List String) : String :=
  match elem.dropWhile (fun e => e = "") with
  | [] => ""
  | es => Clean (String.intercalate "/" es)

/-! ## Go and Kubernetes values -/

/-- A Go `error` value (non-nil). -/
structure Error where
  msg : String
  deriving DecidableEq

/-- How a Go call ends: it returns a value, or it dies of a nil pointer
dereference (a run-time panic). -/
inductive Outcome (α : Type) where
  | returned (a : α)
  | nilDeref
  deriving DecidableEq

/-- The type `v1.VolumeMount` (the fields `main.go` sets). -/
structure VolumeMount where
  Name : String
  MountPath : String
  deriving DecidableEq

/-- The type `v1.Container` (the fields `main.go` sets). -/
structure Container where
  Name : String
  Image : String
  Command : List String
  VolumeMounts : List VolumeMount
  deriving DecidableEq

/-- The type `v1.HostPathVolumeSource`. -/
structure HostPathVolumeSource where
  Path : String
  deriving DecidableEq

/-- The type `v1.VolumeSource`; `HostPath` is a pointer. -/
structure VolumeSource where
  HostPath : Option HostPathVolumeSource
  deriving DecidableEq

/-- The type `v1.Volume`. -/
structure Volume where
  Name : String
  VolumeSource : PodRunner.VolumeSource
  deriving DecidableEq

/-- The type `v1.PodSpec` (the fields `main.go` sets). -/
structure PodSpec where
  Containers : List Container
  Volumes : List Volume
  RestartPolicy : String
  deriving DecidableEq

/-- The type `metav1.ObjectMeta` (the fields `main.go` reads or sets). -/
structure ObjectMeta where
  Name : String
  GenerateName : String
  deriving DecidableEq

/-- The type `v1.PodStatus` (the field `main.go` reads); a `v1.PodPhase` is a
string. -/
structure PodStatus where
  Phase : String
  deriving DecidableEq

/-- The type `v1.Pod`. -/
structure Pod where
  ObjectMeta : PodRunner.ObjectMeta
  Spec : PodSpec
  Status : PodStatus
  deriving DecidableEq

/-- The constant `v1.PodPending`. -/
def PodPending : String := "Pending"

/-- The constant `v1.PodRunning`. -/
def PodRunning : String := "Running"

/-- The constant `v1.PodSucceeded`. -/
def PodSucceeded : String := "Succeeded"

/-- The constant `v1.PodFailed`. -/
def PodFailed : String := "Failed"

/-- The constant `v1.RestartPolicyNever`. -/
def RestartPolicyNever : String := "Never"

/-- The constant `time.Second`, a `time.Duration` in nanoseconds. -/
def Second : Nat := 1000000000

/-- A `*rest.Config`, as a token. -/
structure Config where
  id : Nat
  deriving DecidableEq

/-- A `*kubernetes.Clientset`, as a token. -/
structure Clientset where
  id : Nat
  deriving DecidableEq

/-- What the `io.ReadCloser` of a log request delivers: the chunks its `Read`
calls return, in order, and then `io.EOF` (`err = none`) or a read error. -/
structure LogStream where
  chunks : List String
  err : Option Error

/-! ## The world outside the process -/

/-- The calls that leave the process, as recorded in a trace. -/
inductive Event where
  /-- A call of `os.Getwd`. -/
  | getwd
  /-- A call of `clientcmd.BuildConfigFromFlags`. -/
  | buildConfig (masterUrl kubeconfigPath : String)
  /-- A call of `kubernetes.NewForConfig`; `none` is a nil config. -/
  | newForConfig (config : Option Config)
  /-- A call of `Pods(ns).Create`. -/
  | create (ns : String) (pod : Pod)
  /-- A call of `Pods(ns).Get`: a status query. -/
  | get (ns name : String)
  /-- A call of `time.Sleep`. -/
  | sleep (d : Nat)
  /-- A call of `Pods(ns).GetLogs(name, opts).Stream`: the log-stream request. -/
  | stream (ns name : String)
  /-- The deferred `podLogs.Close()`. -/
  | close
  deriving DecidableEq

/-- The external calls of a run, oldest first. -/
abbrev Trace := List Event

/-- Recogniser of `Event.getwd`. -/
def Event.isGetwd : Event → Bool
  | .getwd => true
  | _ => false

/-- Recogniser of `Event.buildConfig`. -/
def Event.isBuildConfig : Event → Bool
  | .buildConfig _ _ => true
  | _ => false

/-- Recogniser of `Event.newForConfig`. -/
def Event.isNewForConfig : Event → Bool
  | .newForConfig _ => true
  | _ => false

/-- Recogniser of `Event.create`. -/
def Event.isCreate : Event → Bool
  | .create _ _ => true
  | _ => false

/-- Recogniser of `Event.get`. -/
def Event.isGet : Event → Bool
  | .get _ _ => true
  | _ => false

/-- Recogniser of `Event.sleep`. -/
def Event.isSleep : Event → Bool
  | .sleep _ => true
  | _ => false

/-- Recogniser of `Event.stream`. -/
def Event.isStream : Event → Bool
  | .stream _ _ => true
  | _ => false

/-- The number of calls of one kind made so far. -/
def calls (kind : Event → Bool) (t : Trace) : Nat := t.countP kind

/-- The answers of everything outside the process.  An operation that the
program may call more than once takes the number of its earlier calls as first
argument, so that successive calls may be answered differently. -/
structure World where
  /-- The value of `homedir.HomeDir()`. -/
  HomeDir : String
  /-- The results of `os.Getwd()`. -/
  Getwd : Nat → Except Error String
  /-- The results of `clientcmd.BuildConfigFromFlags(masterUrl, kubeconfigPath)`. -/
  BuildConfigFromFlags : Nat → String → String → Except Error Config
  /-- The results of `kubernetes.NewForConfig(c)` for a non-nil `c`. -/
  NewForConfig : Nat → Config → Except Error Clientset
  /-- What `kubernetes.NewForConfig(nil)` does: `none` when the library
  dereferences its argument (a run-time panic), else what it returns. -/
  NewForConfigNil : Nat → Option (Except Error Clientset)
  /-- The result of `clientset.CoreV1().Pods(ns).Create(ctx, pod, opts)`. -/
  Create : Clientset → String → Pod → Except Error Pod
  /-- The results of `clientset.CoreV1().Pods(ns).Get(ctx, name, opts)`. -/
  Get : Nat → Clientset → String → String → Except Error Pod
  /-- The result of `clientset.CoreV1().Pods(ns).GetLogs(name, opts).Stream(ctx)`. -/
  Stream : Clientset → String → String → Except Error LogStream

/-- The function `filepath.Abs` (Unix): an absolute path is cleaned, a relative
one is joined to the working directory; the only failure is that of
`os.Getwd`. -/
def Abs (w : World) (path : String) (t : Trace) : (String × Option Error) × Trace :=
  if IsAbs path then ((Clean path, none), t)
  else
    match w.Getwd (calls Event.isGetwd t) with
    | .error err => (("", some err), t ++ [Event.getwd])
    | .ok wd => ((Join [wd, path], none), t ++ [Event.getwd])

/-- The function `fmt.Println` on string operands: spaces are always added
between operands and a newline is appended. -/
def Println (a : List String) : String := String.intercalate " " a ++ "\n"

/-- The call `io.Copy(buf, podLogs)` into a `bytes.Buffer` holding `buf`: the
chunks are appended as they are read; the result is the buffer and the error
that ended the copy (`none` for `io.EOF`). -/
def ioCopy (buf : String) : List String → Option Error → String × Option Error
  | [], err => (buf, err)
  | chunk :: chunks, err => ioCopy (buf ++ chunk) chunks err

/-! ## main.go -/

/-- The pod definition of `CreatePythonPod` (lines 38-68). -/
def podDefinition (scriptPath absScriptPath : String) : Pod :=
  { ObjectMeta := { Name := "", GenerateName := "python-script-" }
    Spec :=
      { Containers :=
          [{ Name := "python"
             Image := "python:3.8"
             Command := ["python", "/scripts/" ++ Base scriptPath]
             VolumeMounts := [{ Name := "script-volume", MountPath := "/scripts" }] }]
        Volumes :=
          [{ Name := "script-volume"
             VolumeSource := { HostPath := some { Path := Dir absScriptPath } } }]
        RestartPolicy := RestartPolicyNever }
    Status := { Phase := "" } }

/-- The function `CreatePythonPod`.  The result is the pair `(*v1.Pod, error)`
with `none` for nil. -/
def CreatePythonPod (w : World) (kubeconfigPath scriptPath : String) (t : Trace) :
    (Option Pod × Option Error) × Trace :=
  let t1 := t ++ [Event.buildConfig "" kubeconfigPath]
  match w.BuildConfigFromFlags (calls Event.isBuildConfig t) "" kubeconfigPath with
  | .error err => ((none, some err), t1)
  | .ok config =>
    let t2 := t1 ++ [Event.newForConfig (some config)]
    match w.NewForConfig (calls Event.isNewForConfig t1) config with
    | .error err => ((none, some err), t2)
    | .ok clientset =>
      match Abs w scriptPath t2 with
      | ((_, some err), t3) => ((none, some err), t3)
      | ((absScriptPath, none), t3) =>
        let pod := podDefinition scriptPath absScriptPath
        let t4 := t3 ++ [Event.create "default" pod]
        match w.Create clientset "default" pod with
        | .error err => ((none, some err), t4)
        | .ok pod => ((some pod, none), t4)

/-- True of a terminal phase: the test of line 85. -/
def terminalPhase (pod : Pod) : Bool :=
  pod.Status.Phase = PodSucceeded || pod.Status.Phase = PodFailed

/-- The function `WaitForPodCompletion`.  The first `Nat` bounds the number of
iterations of the `for` loop: `none` means that the loop is still running after
that many.  A nil `clientset` is dereferenced by `clientset.CoreV1()`. -/
def WaitForPodCompletion (w : World) (clientset : Option Clientset) (podName : String) :
    Nat → Trace → Option (Outcome (Option Error) × Trace)
  | 0, _ => none
  | fuel + 1, t =>
    match clientset with
    | none => some (.nilDeref, t)
    | some cs =>
      let t1 := t ++ [Event.get "default" podName]
      match w.Get (calls Event.isGet t) cs "default" podName with
      | .error err => some (.returned (some err), t1)
      | .ok pod =>
        if terminalPhase pod then some (.returned none, t1)
        else WaitForPodCompletion w clientset podName fuel (t1 ++ [Event.sleep (5 * Second)])

/-- The function `GetPodLogs`.  The result is the pair `(string, error)`.  A nil
`clientset` is dereferenced by `clientset.CoreV1()`. -/
def GetPodLogs (w : World) (clientset : Option Clientset) (podName : String) (t : Trace) :
    Outcome (String × Option Error) × Trace :=
  match clientset with
  | none => (.nilDeref, t)
  | some cs =>
    let t1 := t ++ [Event.stream "default" podName]
    match w.Stream cs "default" podName with
    | .error err => (.returned ("", some err), t1)
    | .ok podLogs =>
      match ioCopy "" podLogs.chunks podLogs.err with
      | (_, some err) => (.returned ("", some err), t1 ++ [Event.close])
      | (str, none) => (.returned (str, none), t1 ++ [Event.close])

/-- How a run of the process ends. -/
inductive Exit where
  /-- Function `main` returned; `stdout` is what it wrote to standard output. -/
  | ok (stdout : String)
  /-- The process died of `panic(err)`. -/
  | panic (err : Error)
  /-- The process died of a nil pointer dereference. -/
  | nilDeref
  deriving DecidableEq

/-- The call `kubernetes.NewForConfig(config)` of line 122, whose argument is
nil when line 121 failed: `none` when the call panics, else the clientset that
line 122 keeps (nil when the call returned an error, which is discarded). -/
def mainClientset (w : World) (config : Option Config) (t : Trace) : Option (Option Clientset) :=
  match config with
  | some c => some (w.NewForConfig (calls Event.isNewForConfig t) c).toOption
  | none => (w.NewForConfigNil (calls Event.isNewForConfig t)).map Except.toOption

/-- The function `main`.  The `Nat` bounds the iterations of the polling loop;
`none` means that the run is still polling after that many. -/
def main (w : World) (fuel : Nat) : Option (Exit × Trace) :=
  let kubeconfig := Join [w.HomeDir, ".kube", "config"]
  let t0 : Trace := [Event.getwd]
  match w.Getwd 0 with
  | .error err => some (.panic err, t0)
  | .ok currentDir =>
    let absScriptPath := Join [currentDir, "script.py"]
    let t1 : Trace := [Event.getwd, Event.buildConfig "" kubeconfig]
    let config := (w.BuildConfigFromFlags 0 "" kubeconfig).toOption
    let t2 : Trace := [Event.getwd, Event.buildConfig "" kubeconfig, Event.newForConfig config]
    match mainClientset w config t1 with
    | none => some (.nilDeref, t2)
    | some clientset =>
      match CreatePythonPod w kubeconfig absScriptPath t2 with
      | ((_, some err), t3) => some (.panic err, t3)
      | ((none, none), t3) => some (.nilDeref, t3)
      | ((some pod, none), t3) =>
        match WaitForPodCompletion w clientset pod.ObjectMeta.Name fuel t3 with
        | none => none
        | some (.nilDeref, t4) => some (.nilDeref, t4)
        | some (.returned (some err), t4) => some (.panic err, t4)
        | some (.returned none, t4) =>
          match GetPodLogs w clientset pod.ObjectMeta.Name t4 with
          | (.nilDeref, t5) => some (.nilDeref, t5)
          | (.returned (_, some err), t5) => some (.panic err, t5)
          | (.returned (logs, none), t5) => some (.ok (Println ["Pod logs:\n", logs]), t5)

/-! ## Vocabulary of the statements and sample worlds -/

/-- True of a status-query result that makes the loop go round again. -/
def keepsPolling (r : Except Error Pod) : Bool :=
  match r with
  | .ok pod => !terminalPhase pod
  | .error _ => false

/-- True of a status-query result that ends the loop with a nil error. -/
def endsPolling (r : Except Error Pod) : Bool :=
  match r with
  | .ok pod => terminalPhase pod
  | .error _ => false

/-- The events of `k` rounds of the polling loop that go round again. -/
def pollRounds (podName : String) : Nat → Trace
  | 0 => []
  | k + 1 => Event.get "default" podName :: Event.sleep (5 * Second) :: pollRounds podName k

/-- A pod named `name` in phase `phase`. -/
def podInPhase (name phase : String) : Pod :=
  { ObjectMeta := { Name := name, GenerateName := "python-script-" }
    Spec := { Containers := [], Volumes := [], RestartPolicy := RestartPolicyNever }
    Status := { Phase := phase } }

/-- A world whose status queries answer with the phases of `phases`, in order,
and fail once the list is used up. -/
def phasesWorld (phases : List String) : World where
  HomeDir := "/home/u"
  Getwd := fun _ => .ok "/tmp"
  BuildConfigFromFlags := fun _ _ _ => .ok ⟨0⟩
  NewForConfig := fun _ _ => .ok ⟨0⟩
  NewForConfigNil := fun _ => none
  Create := fun _ _ pod =>
    .ok { pod with ObjectMeta := { Name := "python-script-abcde", GenerateName := "python-script-" } }
  Get := fun i _ _ name =>
    match phases.get? i with
    | some phase => .ok (podInPhase name phase)
    | none => .error ⟨"pods not found"⟩
  Stream := fun _ _ _ => .ok ⟨["hel", "lo\n"], none⟩

/-- The world `phasesWorld [PodSucceeded]` with the log-stream request answered
by `r`. -/
def logsWorld (r : Except Error LogStream) : World :=
  { phasesWorld [PodSucceeded] with Stream := fun _ _ _ => r }

/-- A world whose cluster rejects the creation of the pod with `e`. -/
def rejectingWorld (e : Error) : World :=
  { phasesWorld [] with Create := fun _ _ _ => .error e }

/-- A world without a readable kubeconfig, whose `kubernetes.NewForConfig`
dereferences its argument. -/
def missingKubeconfigWorld : World :=
  { phasesWorld [PodSucceeded] with
    BuildConfigFromFlags := fun _ _ _ =>
      .error ⟨"stat /home/u/.kube/config: no such file or directory"⟩ }

/-- The kubeconfig path of line 112. -/
def mainKubeconfig (w : World) : String := Join [w.HomeDir, ".kube", "config"]

/-- The trace of lines 112-122 of `main` when they are passed. -/
def mainPrelude (w : World) : Trace :=
  [Event.getwd, Event.buildConfig "" (mainKubeconfig w),
   Event.newForConfig (w.BuildConfigFromFlags 0 "" (mainKubeconfig w)).toOption]

/-- In a run of `main` in world `w`, lines 112-127 are passed: the working
directory is found, line 122 leaves `clientset` in `main` (nil when the call
failed), and `CreatePythonPod` returns `pod` with a nil error and the trace
`t`. -/
def Submitted (w : World) (clientset : Option Clientset) (pod : Pod) (t : Trace) : Prop :=
  ∃ currentDir, w.Getwd 0 = .ok currentDir ∧
    mainClientset w (w.BuildConfigFromFlags 0 "" (mainKubeconfig w)).toOption
      [Event.getwd, Event.buildConfig "" (mainKubeconfig w)] = some clientset ∧
    CreatePythonPod w (mainKubeconfig w) (Join [currentDir, "script.py"]) (mainPrelude w) =
      ((some pod, none), t)

/-- The events of `CreatePythonPod` before the creation call: none of them
reaches the cluster. -/
def Local (e : Event) : Prop :=
  e.isCreate = false ∧ e.isGet = false ∧ e.isStream = false ∧ e.isSleep = false

/-- The scenario of the specification: the working directory is `/tmp`, the
cluster names the pod `python-script-abcde`, the status queries answer Running,
Running, Succeeded, and the log stream yields the bytes of "hello\n". -/
def scenarioWorld : World := phasesWorld [PodRunning, PodRunning, PodSucceeded]

/-- The trace of the run of `main` in `scenarioWorld`. -/
def scenarioTrace : Trace :=
  [Event.getwd, Event.buildConfig "" "/home/u/.kube/config", Event.newForConfig (some ⟨0⟩),
   Event.buildConfig "" "/home/u/.kube/config", Event.newForConfig (some ⟨0⟩),
   Event.create "default" (podDefinition "/tmp/script.py" "/tmp/script.py"),
   Event.get "default" "python-script-abcde", Event.sleep (5 * Second),
   Event.get "default" "python-script-abcde", Event.sleep (5 * Second),
   Event.get "default" "python-script-abcde",
   Event.stream "default" "python-script-abcde", Event.close]

/-- The text `text` begins with `start`. -/
def beginsWith (text start : String) : Prop := start.data <+: text.data

instance (text start : String) : Decidable (beginsWith text start) := by
  unfold beginsWith; infer_instance

/-! ## Vocabulary of the path lemmas -/

/-- The elements of a path: the runs of bytes between separators (empty ones
included). -/
def splitSlash : List Char → List (List Char)
  | [] => [[]]
  | c :: cs =>
    if IsPathSeparator c then [] :: splitSlash cs
    else
      match splitSlash cs with
      | [] => [[c]]
      | e :: es => (c :: e) :: es

/-- One round of the loop of `Clean`, by the element it consumes. -/
def stepElem (rooted : Bool) (st : List Char × Nat) (e : List Char) : List Char × Nat :=
  if e = [] ∨ e = ['.'] then st
  else if e = ['.', '.'] then dotdotElem rooted st
  else realElem rooted e st

/-- The elements that follow the first one. -/
def laterElems (path : List Char) : List (List Char) :=
  match elemRest path with
  | [] => []
  | _ :: r => splitSlash r

/-- A real path element: not empty, not `.`, not `..`, and free of separators. -/
def IsName (e : List Char) : Prop :=
  e ≠ [] ∧ e ≠ ['.'] ∧ e ≠ ['.', '.'] ∧ ∀ c ∈ e, IsPathSeparator c = false

instance (e : List Char) : Decidable (IsName e) := by
  unfold IsName; infer_instance

/-- The buffer of `Clean` (latest byte first) that holds `k` elements `..`. -/
def dotsBuf : Nat → List Char
  | 0 => []
  | k + 1 => '.' :: '.' :: (if 0 < (dotsBuf k).length then Separator :: dotsBuf k else dotsBuf k)

/-- The state of the loop of `Clean` before any real element: the leading
separator of a rooted path, or `k` leading elements `..` of a relative one. -/
def baseState (rooted : Bool) (k : Nat) : List Char × Nat :=
  if rooted then ([Separator], 1) else (dotsBuf k, (dotsBuf k).length)

/-- The state of the loop of `Clean` that holds the real elements `names` after
the base. -/
def canon (rooted : Bool) (k : Nat) (names : List (List Char)) : List Char × Nat :=
  names.foldl (fun st e => realElem rooted e st) (baseState rooted k)

/-- True of a path that begins with a separator. -/
def rootedPath (path : List Char) : Bool := path.head?.map IsPathSeparator = some true

/-- The bytes that the loop of `Clean` reads. -/
def afterRoot (rooted : Bool) (path : List Char) : List Char :=
  if rooted then path.tail else path

/-- The state in which the loop of `Clean` ends on `path`, read as rooted or
not. -/
def runFrom (rooted : Bool) (path : List Char) : List Char × Nat :=
  (splitSlash (afterRoot rooted path)).foldl (stepElem rooted) (canon rooted 0 [])

/-- The last step of `Clean`: the buffer as a string, or `.` when it is empty. -/
def finishBuf (out : List Char) : List Char :=
  if out.length = 0 then ['.'] else out.reverse

/-- The buffer `out` with the separator that `Clean` writes before a further
element. -/
def sepBefore (rooted : Bool) (out : List Char) : List Char :=
  if (rooted = true ∧ out.length ≠ 1) ∨ (rooted = false ∧ out.length ≠ 0) then
    Separator :: out
  else out

/-- A state of the loop of `Clean` that cleaning its own buffer reproduces. -/
def Good (rooted : Bool) (S : List Char × Nat) : Prop :=
  runFrom rooted S.1.reverse = S ∧ (S.1 ≠ [] → rootedPath S.1.reverse = rooted) ∧
    (rooted = true → S.1 ≠ [])

/-- The last element of a path: the bytes after its last separator. -/
def lastElem (path : List Char) : List Char :=
  (path.reverse.takeWhile (fun c => !IsPathSeparator c)).reverse

/-! ## Lemmas on the polling loop -/

theorem calls_append (kind : Event → Bool) (s t : Trace) :
    calls kind (s ++ t) = calls kind s + calls kind t := by
  simp [calls, List.countP_append]

theorem calls_get_pollRounds (podName : String) (k : Nat) :
    calls Event.isGet (pollRounds podName k) = k := by
  induction k with
  | zero => rfl
  | succ k ih =>
    simp only [calls, pollRounds] at ih ⊢
    simp [List.countP_cons, Event.isGet, ih]

theorem calls_sleep_pollRounds (podName : String) (k : Nat) :
    calls Event.isSleep (pollRounds podName k) = k := by
  induction k with
  | zero => rfl
  | succ k ih =>
    simp only [calls, pollRounds] at ih ⊢
    simp [List.countP_cons, Event.isSleep, ih]

theorem wait_succ (w : World) (cs : Clientset) (podName : String) (fuel : Nat) (t : Trace) :
    WaitForPodCompletion w (some cs) podName (fuel + 1) t =
      match w.Get (calls Event.isGet t) cs "default" podName with
      | .error err => some (.returned (some err), t ++ [Event.get "default" podName])
      | .ok pod =>
        if terminalPhase pod then some (.returned none, t ++ [Event.get "default" podName])
        else WaitForPodCompletion w (some cs) podName fuel
          (t ++ [Event.get "default" podName] ++ [Event.sleep (5 * Second)]) := rfl

theorem wait_rounds (w : World) (cs : Clientset) (podName : String) (k : Nat) :
    ∀ (fuel : Nat) (t : Trace),
    (∀ i, i < k → keepsPolling (w.Get (calls Event.isGet t + i) cs "default" podName) = true) →
    WaitForPodCompletion w (some cs) podName (fuel + k) t =
      WaitForPodCompletion w (some cs) podName fuel (t ++ pollRounds podName k) := by
  induction k with
  | zero => intro fuel t _; simp [pollRounds]
  | succ k ih =>
    intro fuel t h
    have h0 := h 0 (Nat.succ_pos k)
    rw [Nat.add_zero] at h0
    have hf : fuel + (k + 1) = (fuel + k) + 1 := by omega
    rw [hf, wait_succ]
    cases hr : w.Get (calls Event.isGet t) cs "default" podName with
    | error e => rw [hr] at h0; simp [keepsPolling] at h0
    | ok pod =>
      rw [hr] at h0
      have hnt : terminalPhase pod = false := by simpa [keepsPolling] using h0
      simp only [hnt]
      rw [ih]
      · simp [pollRounds]
      · intro i hi
        have := h (i + 1) (Nat.succ_lt_succ hi)
        have hc : calls Event.isGet (t ++ [Event.get "default" podName] ++
            [Event.sleep (5 * Second)]) + i = calls Event.isGet t + (i + 1) := by
          simp [calls, List.countP_append, List.countP_cons, Event.isGet]; omega
        rw [hc]; exact this

theorem wait_still_polling (w : World) (cs : Clientset) (podName : String) (fuel : Nat)
    (t : Trace)
    (h : ∀ i, i < fuel → keepsPolling (w.Get (calls Event.isGet t + i) cs "default" podName) = true) :
    WaitForPodCompletion w (some cs) podName fuel t = none := by
  have := wait_rounds w cs podName fuel 0 t h
  rw [Nat.zero_add] at this
  rw [this]; rfl

/-! ## Lemmas on the log reader -/

theorem foldl_append_string (l : List String) (a b : String) :
    List.foldl (fun r s => r ++ s) (a ++ b) l = a ++ List.foldl (fun r s => r ++ s) b l := by
  induction l generalizing b with
  | nil => rfl
  | cons c l ih => simp only [List.foldl_cons]; rw [String.append_assoc]; exact ih _

theorem join_cons (c : String) (l : List String) :
    String.join (c :: l) = c ++ String.join l := by
  have h := foldl_append_string l c ""
  rw [String.append_empty] at h
  simp only [String.join, List.foldl_cons, String.empty_append]
  exact h

theorem ioCopy_eq (chunks : List String) (buf : String) (err : Option Error) :
    ioCopy buf chunks err = (buf ++ String.join chunks, err) := by
  induction chunks generalizing buf with
  | nil => simp [ioCopy, String.join]
  | cons c l ih => rw [ioCopy, ih, join_cons, String.append_assoc]

theorem join_data (chunks : List String) :
    (String.join chunks).data = (chunks.map String.data).flatten := by
  induction chunks with
  | nil => rfl
  | cons c l ih => rw [join_cons, String.data_append, ih]; rfl

theorem join_empty (chunks : List String) (h : ∀ c ∈ chunks, c = "") :
    String.join chunks = "" := by
  induction chunks with
  | nil => rfl
  | cons c l ih =>
    rw [join_cons, h c (List.mem_cons_self c l), ih (fun d hd => h d (List.mem_cons_of_mem c hd))]
    rfl

theorem GetPodLogs_eq (w : World) (cs : Clientset) (podName : String) (t : Trace) :
    GetPodLogs w (some cs) podName t =
      match w.Stream cs "default" podName with
      | .error err => (.returned ("", some err), t ++ [Event.stream "default" podName])
      | .ok podLogs =>
        match podLogs.err with
        | some err =>
          (.returned ("", some err), t ++ [Event.stream "default" podName] ++ [Event.close])
        | none =>
          (.returned (String.join podLogs.chunks, none),
            t ++ [Event.stream "default" podName] ++ [Event.close]) := by
  rw [GetPodLogs]
  cases w.Stream cs "default" podName with
  | error e => rfl
  | ok podLogs =>
    simp only [ioCopy_eq, String.empty_append]
    cases podLogs.err <;> rfl

/-! ## Lemmas on the traces of the phases -/

theorem Abs_trace (w : World) (p : String) (t : Trace) :
    ∃ evs, (Abs w p t).2 = t ++ evs ∧ ∀ e ∈ evs, e = Event.getwd := by
  unfold Abs
  split
  · exact ⟨[], by simp, by simp⟩
  · split
    · exact ⟨[Event.getwd], rfl, by simp⟩
    · exact ⟨[Event.getwd], rfl, by simp⟩

theorem CreatePythonPod_trace (w : World) (kc p : String) (t : Trace) :
    ∃ evs, (∀ e ∈ evs, Local e) ∧
      (((CreatePythonPod w kc p t).2 = t ++ evs ∧ ∃ err, (CreatePythonPod w kc p t).1 = (none, some err)) ∨
       (∃ cs a err, (CreatePythonPod w kc p t).2 = t ++ evs ++ [Event.create "default" (podDefinition p a)] ∧
          w.Create cs "default" (podDefinition p a) = .error err ∧
          (CreatePythonPod w kc p t).1 = (none, some err)) ∨
       (∃ cs a pod, (CreatePythonPod w kc p t).2 = t ++ evs ++ [Event.create "default" (podDefinition p a)] ∧
          w.Create cs "default" (podDefinition p a) = .ok pod ∧
          (CreatePythonPod w kc p t).1 = (some pod, none))) := by
  unfold CreatePythonPod
  cases hb : w.BuildConfigFromFlags (calls Event.isBuildConfig t) "" kc with
  | error e =>
    refine ⟨[Event.buildConfig "" kc], ?_, Or.inl ⟨rfl, e, rfl⟩⟩
    intro e he; simp at he; subst he; exact ⟨rfl, rfl, rfl, rfl⟩
  | ok config =>
    dsimp only
    cases hn : w.NewForConfig (calls Event.isNewForConfig (t ++ [Event.buildConfig "" kc])) config with
    | error e =>
      refine ⟨[Event.buildConfig "" kc, Event.newForConfig (some config)], ?_, Or.inl ⟨by simp, e, rfl⟩⟩
      intro e he; simp at he; rcases he with rfl | rfl <;> exact ⟨rfl, rfl, rfl, rfl⟩
    | ok cs =>
      dsimp only
      obtain ⟨evs, hevs, hloc⟩ := Abs_trace w p (t ++ [Event.buildConfig "" kc] ++ [Event.newForConfig (some config)])
      have hl : ∀ e ∈ [Event.buildConfig "" kc, Event.newForConfig (some config)] ++ evs, Local e := by
        intro e he
        rw [List.mem_append] at he
        rcases he with he | he
        · simp at he; rcases he with rfl | rfl <;> exact ⟨rfl, rfl, rfl, rfl⟩
        · rw [hloc e he]; exact ⟨rfl, rfl, rfl, rfl⟩
      refine ⟨[Event.buildConfig "" kc, Event.newForConfig (some config)] ++ evs, hl, ?_⟩
      rcases ha : Abs w p (t ++ [Event.buildConfig "" kc] ++ [Event.newForConfig (some config)]) with ⟨⟨a, aerr⟩, t3⟩
      rw [ha] at hevs
      simp only at hevs
      subst hevs
      cases aerr with
      | some e => exact Or.inl ⟨by simp, e, rfl⟩
      | none =>
        dsimp only
        cases hc : w.Create cs "default" (podDefinition p a) with
        | error e => exact Or.inr (Or.inl ⟨cs, a, e, by simp, hc, rfl⟩)
        | ok pod => exact Or.inr (Or.inr ⟨cs, a, pod, by simp, hc, rfl⟩)

theorem wait_trace (w : World) (clientset : Option Clientset) (podName : String) :
    ∀ (fuel : Nat) (t : Trace) (r : Outcome (Option Error)) (t1 : Trace),
    WaitForPodCompletion w clientset podName fuel t = some (r, t1) →
    ∃ evs, t1 = t ++ evs ∧
      ∀ e ∈ evs, e = Event.get "default" podName ∨ e = Event.sleep (5 * Second) := by
  intro fuel
  induction fuel with
  | zero => intro t r t1 h; simp [WaitForPodCompletion] at h
  | succ fuel ih =>
    intro t r t1 h
    cases clientset with
    | none =>
      simp only [WaitForPodCompletion, Option.some.injEq, Prod.mk.injEq] at h
      exact ⟨[], by simp [h.2], by simp⟩
    | some cs =>
      rw [wait_succ] at h
      cases hr : w.Get (calls Event.isGet t) cs "default" podName with
      | error e =>
        simp only [hr, Option.some.injEq, Prod.mk.injEq] at h
        exact ⟨[Event.get "default" podName], h.2.symm, by simp⟩
      | ok pod =>
        simp only [hr] at h
        by_cases ht : terminalPhase pod = true
        · simp only [ht, if_true, Option.some.injEq, Prod.mk.injEq] at h
          exact ⟨[Event.get "default" podName], h.2.symm, by simp⟩
        · simp only [ht] at h
          obtain ⟨evs, h1, h2⟩ := ih _ _ _ h
          refine ⟨Event.get "default" podName :: Event.sleep (5 * Second) :: evs, by simp [h1], ?_⟩
          intro e he
          simp only [List.mem_cons] at he
          rcases he with rfl | rfl | he
          · exact Or.inl rfl
          · exact Or.inr rfl
          · exact h2 e he

theorem main_of_submitted (w : World) (clientset : Option Clientset) (pod : Pod) (t3 : Trace)
    (hsub : Submitted w clientset pod t3) (fuel : Nat) :
    main w fuel =
      match WaitForPodCompletion w clientset pod.ObjectMeta.Name fuel t3 with
      | none => none
      | some (.nilDeref, t4) => some (.nilDeref, t4)
      | some (.returned (some err), t4) => some (.panic err, t4)
      | some (.returned none, t4) =>
        match GetPodLogs w clientset pod.ObjectMeta.Name t4 with
        | (.nilDeref, t5) => some (.nilDeref, t5)
        | (.returned (_, some err), t5) => some (.panic err, t5)
        | (.returned (logs, none), t5) => some (.ok (Println ["Pod logs:\n", logs]), t5) := by
  obtain ⟨cwd, h1, h2, h3⟩ := hsub
  simp only [mainKubeconfig, mainPrelude] at h2 h3
  simp only [main, h1, h2, h3]

theorem main_ok_inv (w : World) (fuel : Nat) (out : String) (t : Trace)
    (h : main w fuel = some (Exit.ok out, t)) :
    ∃ clientset pod t3 t4 logs, Submitted w clientset pod t3 ∧
      WaitForPodCompletion w clientset pod.ObjectMeta.Name fuel t3 = some (.returned none, t4) ∧
      GetPodLogs w clientset pod.ObjectMeta.Name t4 = (.returned (logs, none), t) ∧
      out = Println ["Pod logs:\n", logs] := by
  unfold main at h
  cases h1 : w.Getwd 0 with
  | error e => simp [h1] at h
  | ok cwd =>
    simp only [h1] at h
    cases h2 : mainClientset w (w.BuildConfigFromFlags 0 "" (Join [w.HomeDir, ".kube", "config"])).toOption
        [Event.getwd, Event.buildConfig "" (Join [w.HomeDir, ".kube", "config"])] with
    | none => rw [h2] at h; simp at h
    | some clientset =>
      rw [h2] at h
      dsimp only at h
      rcases h3 : CreatePythonPod w (Join [w.HomeDir, ".kube", "config"]) (Join [cwd, "script.py"])
        [Event.getwd, Event.buildConfig "" (Join [w.HomeDir, ".kube", "config"]),
          Event.newForConfig (w.BuildConfigFromFlags 0 "" (Join [w.HomeDir, ".kube", "config"])).toOption]
        with ⟨⟨pod, err⟩, t3⟩
      rw [h3] at h
      cases err with
      | some e => simp at h
      | none =>
        cases pod with
        | none => simp at h
        | some pod =>
          simp only at h
          have hsub : Submitted w clientset pod t3 := ⟨cwd, h1, h2, h3⟩
          refine ⟨clientset, pod, t3, ?_⟩
          cases h4 : WaitForPodCompletion w clientset pod.ObjectMeta.Name fuel t3 with
          | none => simp [h4] at h
          | some rt =>
            obtain ⟨r, t4⟩ := rt
            rw [h4] at h
            cases r with
            | nilDeref => simp at h
            | returned err =>
              cases err with
              | some e => simp at h
              | none =>
                simp only at h
                rcases h5 : GetPodLogs w clientset pod.ObjectMeta.Name t4 with ⟨r5, t5⟩
                rw [h5] at h
                cases r5 with
                | nilDeref => simp at h
                | returned p =>
                  obtain ⟨logs, err⟩ := p
                  cases err with
                  | some e => simp at h
                  | none =>
                    simp only [Option.some.injEq, Prod.mk.injEq, Exit.ok.injEq] at h
                    exact ⟨t4, logs, hsub, rfl, by rw [h5, h.2], h.1.symm⟩

theorem GetPodLogs_ok_trace (w : World) (clientset : Option Clientset) (podName logs : String)
    (t t1 : Trace) (h : GetPodLogs w clientset podName t = (.returned (logs, none), t1)) :
    t1 = t ++ [Event.stream "default" podName] ++ [Event.close] := by
  cases clientset with
  | none => simp [GetPodLogs] at h
  | some cs =>
    rw [GetPodLogs_eq] at h
    cases hr : w.Stream cs "default" podName with
    | error e => simp [hr] at h
    | ok podLogs =>
      cases he : podLogs.err with
      | some e => simp [hr, he] at h
      | none =>
        simp only [hr, he, Prod.mk.injEq] at h
        exact h.2.symm

theorem submitted_trace (w : World) (clientset : Option Clientset) (pod : Pod) (t3 : Trace)
    (hsub : Submitted w clientset pod t3) :
    ∃ evs cs spec, (∀ e ∈ evs, Local e) ∧
      t3 = mainPrelude w ++ evs ++ [Event.create "default" spec] ∧
      w.Create cs "default" spec = .ok pod := by
  obtain ⟨cwd, _, _, h3⟩ := hsub
  obtain ⟨evs, hloc, h⟩ := CreatePythonPod_trace w (mainKubeconfig w) (Join [cwd, "script.py"])
    (mainPrelude w)
  rw [h3] at h
  rcases h with ⟨_, err, he⟩ | ⟨cs, a, err, _, _, he⟩ | ⟨cs, a, pod1, ht, hc, he⟩
  · simp at he
  · simp at he
  · simp only [Prod.mk.injEq, Option.some.injEq, and_true] at he
    subst he
    exact ⟨evs, cs, _, hloc, ht, hc⟩

theorem filter_of_all_false (kind : Event → Bool) (l : Trace) (h : ∀ e ∈ l, kind e = false) :
    l.filter kind = [] := by
  rw [List.filter_eq_nil_iff]
  intro e he
  simp [h e he]

theorem calls_of_all_false (kind : Event → Bool) (l : Trace) (h : ∀ e ∈ l, kind e = false) :
    calls kind l = 0 := by
  rw [calls, List.countP_eq_length_filter, filter_of_all_false kind l h]; rfl

theorem wait_returned_queries (w : World) (clientset : Option Clientset) (podName : String) :
    ∀ (fuel : Nat) (t : Trace) (r : Option Error) (t1 : Trace),
    WaitForPodCompletion w clientset podName fuel t = some (.returned r, t1) →
    calls Event.isGet t < calls Event.isGet t1 := by
  intro fuel
  induction fuel with
  | zero => intro t r t1 h; simp [WaitForPodCompletion] at h
  | succ fuel ih =>
    intro t r t1 h
    cases clientset with
    | none => simp [WaitForPodCompletion] at h
    | some cs =>
      rw [wait_succ] at h
      have hc : calls Event.isGet (t ++ [Event.get "default" podName]) =
          calls Event.isGet t + 1 := by rw [calls_append]; rfl
      cases hr : w.Get (calls Event.isGet t) cs "default" podName with
      | error e =>
        simp only [hr, Option.some.injEq, Prod.mk.injEq] at h
        rw [← h.2, hc]; omega
      | ok pod =>
        simp only [hr] at h
        by_cases ht : terminalPhase pod = true
        · simp only [ht, if_true, Option.some.injEq, Prod.mk.injEq] at h
          rw [← h.2, hc]; omega
        · simp only [ht] at h
          have := ih _ _ _ h
          rw [calls_append, hc] at this
          omega

/-! ## Lemmas on `path/filepath` -/

theorem splitSlash_eq (path : List Char) :
    splitSlash path = elemHead path :: laterElems path := by
  induction path with
  | nil => rfl
  | cons c cs ih =>
    by_cases hc : IsPathSeparator c = true
    · simp [splitSlash, hc, elemHead, elemRest, laterElems]
    · have hc1 : IsPathSeparator c = false := by simpa using hc
      simp only [splitSlash, hc1, ih]
      simp [elemHead, elemRest, laterElems, hc1]

theorem elemRest_length (path : List Char) : (elemRest path).length ≤ path.length := by
  unfold elemRest
  exact (List.dropWhile_sublist _).length_le

theorem foldl_splitSlash_elemRest (rooted : Bool) (path : List Char) (st : List Char × Nat) :
    (splitSlash (elemRest path)).foldl (stepElem rooted) st =
      (laterElems path).foldl (stepElem rooted) st := by
  unfold laterElems
  cases h : elemRest path with
  | nil => simp [splitSlash, stepElem]
  | cons x r =>
    have hx : IsPathSeparator x = true := by
      have := List.head_dropWhile_not (fun c => !IsPathSeparator c) path
      unfold elemRest at h
      simp only [h] at this
      simpa using this
    simp [splitSlash, hx, stepElem]

theorem elemHead_cons (c : Char) (rest : List Char) (hc : IsPathSeparator c = false) :
    elemHead (c :: rest) = c :: elemHead rest := by
  simp [elemHead, hc]

theorem elemRest_cons (c : Char) (rest : List Char) (hc : IsPathSeparator c = false) :
    elemRest (c :: rest) = elemRest rest := by
  simp [elemRest, hc]

theorem elemHead_eq_nil_iff (rest : List Char) :
    elemHead rest = [] ↔ (rest = [] ∨ rest.head?.map IsPathSeparator = some true) := by
  cases rest with
  | nil => simp [elemHead]
  | cons d r =>
    by_cases hd : IsPathSeparator d = true
    · simp [elemHead, hd]
    · simp [elemHead, hd]

theorem elemRest_of_elemHead_nil (rest : List Char) (h : elemHead rest = []) :
    elemRest rest = rest := by
  cases rest with
  | nil => rfl
  | cons d r =>
    by_cases hd : IsPathSeparator d = true
    · simp [elemRest, hd]
    · simp [elemHead, hd] at h

theorem cleanLoop_step (rooted : Bool) (fuel : Nat) (c : Char) (rest : List Char)
    (st : List Char × Nat) (hc : IsPathSeparator c = false) :
    cleanLoop rooted (fuel + 1) (c :: rest) st =
      cleanLoop rooted fuel (elemRest (c :: rest)) (stepElem rooted st (elemHead (c :: rest))) := by
  rw [cleanLoop]
  simp only [hc, Bool.false_eq_true, if_false]
  rw [elemHead_cons c rest hc, elemRest_cons c rest hc]
  by_cases h1 : c = '.' ∧ (rest = [] ∨ rest.head?.map IsPathSeparator = some true)
  · rw [if_pos h1]
    have he : elemHead rest = [] := (elemHead_eq_nil_iff rest).2 h1.2
    rw [he, elemRest_of_elemHead_nil rest he, h1.1]
    simp [stepElem]
  · rw [if_neg h1]
    by_cases h2 : c = '.' ∧ rest.head? = some '.' ∧
        (rest.tail = [] ∨ rest.tail.head?.map IsPathSeparator = some true)
    · rw [if_pos h2]
      obtain ⟨hc1, hr, ht⟩ := h2
      cases rest with
      | nil => simp at hr
      | cons d r =>
        simp only [List.head?_cons, Option.some.injEq] at hr
        subst hr hc1
        simp only [List.tail_cons] at ht
        have hd : IsPathSeparator '.' = false := by decide
        have he : elemHead r = [] := (elemHead_eq_nil_iff r).2 ht
        rw [elemHead_cons _ r hd, elemRest_cons _ r hd, he, elemRest_of_elemHead_nil r he]
        simp [stepElem]
    · rw [if_neg h2]
      have hne : stepElem rooted st (c :: elemHead rest) = realElem rooted (c :: elemHead rest) st := by
        unfold stepElem
        have n1 : ¬ (c :: elemHead rest = [] ∨ c :: elemHead rest = ['.']) := by
          rintro (h | h)
          · cases h
          · simp only [List.cons.injEq] at h
            exact h1 ⟨h.1, (elemHead_eq_nil_iff rest).1 h.2⟩
        have n2 : ¬ (c :: elemHead rest = ['.', '.']) := by
          intro h
          simp only [List.cons.injEq] at h
          obtain ⟨hc1, hr⟩ := h
          cases rest with
          | nil => simp [elemHead] at hr
          | cons d r =>
            by_cases hd : IsPathSeparator d = true
            · simp [elemHead, hd] at hr
            · have hd1 : IsPathSeparator d = false := by simpa using hd
              rw [elemHead_cons d r hd1] at hr
              simp only [List.cons.injEq] at hr
              exact h2 ⟨hc1, by simp [hr.1], by
                simpa using (elemHead_eq_nil_iff r).1 hr.2⟩
        rw [if_neg n1, if_neg n2]
      rw [hne]

theorem cleanLoop_nil (rooted : Bool) (fuel : Nat) (st : List Char × Nat) :
    cleanLoop rooted fuel [] st = st := by
  cases fuel <;> rfl

theorem cleanLoop_eq_foldl (rooted : Bool) :
    ∀ (fuel : Nat) (path : List Char) (st : List Char × Nat), path.length ≤ fuel →
    cleanLoop rooted fuel path st = (splitSlash path).foldl (stepElem rooted) st := by
  intro fuel
  induction fuel with
  | zero =>
    intro path st h
    have : path = [] := List.length_eq_zero.1 (Nat.le_zero.1 h)
    subst this
    simp [cleanLoop, splitSlash, stepElem]
  | succ fuel ih =>
    intro path st h
    cases path with
    | nil => simp [cleanLoop, splitSlash, stepElem]
    | cons c rest =>
      have hlen : rest.length ≤ fuel := by simpa using h
      by_cases hc : IsPathSeparator c = true
      · rw [cleanLoop]
        simp only [hc, if_true]
        rw [ih rest st hlen]
        simp [splitSlash, hc, stepElem]
      · have hc1 : IsPathSeparator c = false := by simpa using hc
        rw [cleanLoop_step rooted fuel c rest st hc1, splitSlash_eq (c :: rest)]
        have hl2 : (elemRest (c :: rest)).length ≤ fuel := by
          rw [elemRest_cons c rest hc1]
          exact le_trans (elemRest_length rest) hlen
        rw [ih _ _ hl2, foldl_splitSlash_elemRest]
        rfl

theorem canon_snoc (rooted : Bool) (k : Nat) (ns : List (List Char)) (e : List Char) :
    canon rooted k (ns ++ [e]) = realElem rooted e (canon rooted k ns) := by
  simp [canon, List.foldl_append]

theorem canon_snd (rooted : Bool) (k : Nat) (ns : List (List Char)) :
    (canon rooted k ns).2 = (baseState rooted k).2 := by
  induction ns using List.reverseRecOn with
  | nil => rfl
  | append_singleton ns e ih => rw [canon_snoc]; exact ih

theorem baseState_snd (rooted : Bool) (k : Nat) :
    (baseState rooted k).2 = (baseState rooted k).1.length := by
  cases rooted <;> rfl

theorem realElem_fst_length (rooted : Bool) (e : List Char) (st : List Char × Nat) :
    st.1.length + e.length ≤ (realElem rooted e st).1.length := by
  unfold realElem
  split <;> simp <;> omega

theorem canon_length_ge (rooted : Bool) (k : Nat) (ns : List (List Char)) :
    (canon rooted k ns).2 ≤ (canon rooted k ns).1.length := by
  induction ns using List.reverseRecOn with
  | nil => rw [canon_snd, baseState_snd]; rfl
  | append_singleton ns e ih =>
    have h1 := realElem_fst_length rooted e (canon rooted k ns)
    rw [canon_snoc]
    have h2 : (realElem rooted e (canon rooted k ns)).2 = (canon rooted k ns).2 := rfl
    omega

theorem backtrackLoop_pop (d : Nat) (B : List Char) (hd : d ≤ B.length) :
    ∀ (x : List Char) (c : Char), (∀ y ∈ x, IsPathSeparator y = false) →
      IsPathSeparator c = false →
      ∃ c1, IsPathSeparator c1 = false ∧ backtrackLoop d c (x ++ B) = backtrackLoop d c1 B := by
  intro x
  induction x with
  | nil => intro c _ hc; exact ⟨c, hc, rfl⟩
  | cons y x ih =>
    intro c hx hc
    have hy : IsPathSeparator y = false := hx y (List.mem_cons_self y x)
    obtain ⟨c1, hc1, h⟩ := ih y (fun z hz => hx z (List.mem_cons_of_mem y hz)) hy
    refine ⟨c1, hc1, ?_⟩
    rw [← h]
    have hlen : d < (y :: (x ++ B)).length := by simp; omega
    show backtrackLoop d c (y :: (x ++ B)) = backtrackLoop d y (x ++ B)
    rw [backtrackLoop, if_pos ⟨hlen, hc⟩]

theorem backtrackLoop_stop (d : Nat) (c : Char) (B : List Char) (h : B.length = d) :
    backtrackLoop d c B = B := by
  cases B with
  | nil => rfl
  | cons b B =>
    rw [backtrackLoop, if_neg]
    rw [h]
    exact fun hh => Nat.lt_irrefl _ hh.1

theorem backtrackLoop_sep (d : Nat) (c : Char) (B : List Char) (hc : IsPathSeparator c = false)
    (hd : d ≤ B.length) : backtrackLoop d c (Separator :: B) = B := by
  have hlen : d < (Separator :: B).length := by simp; omega
  rw [backtrackLoop, if_pos ⟨hlen, hc⟩]
  cases B with
  | nil => rfl
  | cons b B =>
    rw [backtrackLoop, if_neg]
    intro hh
    exact absurd hh.2 (by decide)

theorem backtrack_name_sep (d : Nat) (e B : List Char) (he : IsName e) (hd : d ≤ B.length) :
    backtrack d (e.reverse ++ Separator :: B) = B := by
  have hne : e.reverse ≠ [] := by simpa using he.1
  have hall : ∀ y ∈ e.reverse, IsPathSeparator y = false := fun y hy =>
    he.2.2.2 y (List.mem_reverse.1 hy)
  cases hr : e.reverse with
  | nil => exact absurd hr hne
  | cons c x =>
    rw [hr] at hall
    have hc := hall c (List.mem_cons_self c x)
    obtain ⟨c1, hc1, h⟩ := backtrackLoop_pop d (Separator :: B) (by simp; omega) x c
      (fun z hz => hall z (List.mem_cons_of_mem c hz)) hc
    simp only [List.cons_append, backtrack]
    rw [h, backtrackLoop_sep d c1 B hc1 hd]

theorem backtrack_name_stop (d : Nat) (e B : List Char) (he : IsName e) (hd : B.length = d) :
    backtrack d (e.reverse ++ B) = B := by
  have hne : e.reverse ≠ [] := by simpa using he.1
  have hall : ∀ y ∈ e.reverse, IsPathSeparator y = false := fun y hy =>
    he.2.2.2 y (List.mem_reverse.1 hy)
  cases hr : e.reverse with
  | nil => exact absurd hr hne
  | cons c x =>
    rw [hr] at hall
    have hc := hall c (List.mem_cons_self c x)
    obtain ⟨c1, _, h⟩ := backtrackLoop_pop d B (by omega) x c
      (fun z hz => hall z (List.mem_cons_of_mem c hz)) hc
    simp only [List.cons_append, backtrack]
    rw [h, backtrackLoop_stop d c1 B hd]

theorem dotdotElem_canon_snoc (rooted : Bool) (k : Nat) (ns : List (List Char)) (e : List Char)
    (he : IsName e) :
    dotdotElem rooted (canon rooted k (ns ++ [e])) = canon rooted k ns := by
  rw [canon_snoc]
  have hge := canon_length_ge rooted k ns
  have hlen := realElem_fst_length rooted e (canon rooted k ns)
  have hepos : 0 < e.length := List.length_pos.2 he.1
  have h2 : (realElem rooted e (canon rooted k ns)).2 = (canon rooted k ns).2 := rfl
  unfold dotdotElem
  rw [if_pos (by omega), h2]
  apply Prod.ext
  · simp only
    unfold realElem
    simp only
    split
    · exact backtrack_name_sep _ e _ he hge
    · rename_i hcond
      apply backtrack_name_stop _ e _ he
      have hs := canon_snd rooted k ns
      cases rooted with
      | true =>
        simp only [true_and, Bool.true_eq_false, false_and, or_false, ne_eq, not_not] at hcond
        rw [hs]; simpa [baseState] using hcond
      | false =>
        simp only [Bool.false_eq_true, false_and, true_and, false_or, ne_eq, not_not] at hcond
        omega
  · rfl

theorem dotdotElem_base (rooted : Bool) (k : Nat) :
    dotdotElem rooted (baseState rooted k) = baseState rooted (if rooted then k else k + 1) := by
  cases rooted with
  | true => simp [dotdotElem, baseState]
  | false => simp [dotdotElem, baseState, dotsBuf]

theorem stepElem_name (rooted : Bool) (st : List Char × Nat) (e : List Char) (he : IsName e) :
    stepElem rooted st e = realElem rooted e st := by
  unfold stepElem
  rw [if_neg (by rintro (h | h); exact he.1 h; exact he.2.1 h), if_neg he.2.2.1]

theorem stepElem_canon (rooted : Bool) (k : Nat) (names : List (List Char)) (e : List Char)
    (hnames : ∀ n ∈ names, IsName n) (he : ∀ c ∈ e, IsPathSeparator c = false) :
    ∃ k1 names1, (∀ n ∈ names1, IsName n) ∧
      stepElem rooted (canon rooted k names) e = canon rooted k1 names1 := by
  by_cases h1 : e = [] ∨ e = ['.']
  · exact ⟨k, names, hnames, by simp [stepElem, h1]⟩
  · by_cases h2 : e = ['.', '.']
    · have hs : stepElem rooted (canon rooted k names) e =
          dotdotElem rooted (canon rooted k names) := by simp [stepElem, h1, h2]
      rw [hs]
      rcases List.eq_nil_or_concat names with hn | ⟨ns, n, hn⟩
      · subst hn
        exact ⟨if rooted then k else k + 1, [], by simp, dotdotElem_base rooted k⟩
      · subst hn
        rw [List.concat_eq_append] at hnames ⊢
        refine ⟨k, ns, fun m hm => hnames m (List.mem_append_left _ hm), ?_⟩
        exact dotdotElem_canon_snoc rooted k ns n (hnames n (by simp))
    · have hname : IsName e := ⟨fun h => h1 (Or.inl h), fun h => h1 (Or.inr h), h2, he⟩
      refine ⟨k, names ++ [e], ?_, ?_⟩
      · intro n hn
        rcases List.mem_append.1 hn with hn | hn
        · exact hnames n hn
        · rw [List.mem_singleton.1 hn]; exact hname
      · rw [stepElem_name rooted _ e hname, canon_snoc]

theorem foldl_stepElem_canon (rooted : Bool) (elems : List (List Char))
    (helems : ∀ e ∈ elems, ∀ c ∈ e, IsPathSeparator c = false) :
    ∀ (k : Nat) (names : List (List Char)), (∀ n ∈ names, IsName n) →
    ∃ k1 names1, (∀ n ∈ names1, IsName n) ∧
      elems.foldl (stepElem rooted) (canon rooted k names) = canon rooted k1 names1 := by
  induction elems with
  | nil => intro k names hn; exact ⟨k, names, hn, rfl⟩
  | cons e es ih =>
    intro k names hn
    obtain ⟨k1, names1, hn1, h1⟩ := stepElem_canon rooted k names e hn
      (helems e (List.mem_cons_self e es))
    rw [List.foldl_cons, h1]
    exact ih (fun x hx => helems x (List.mem_cons_of_mem e hx)) k1 names1 hn1

theorem splitSlash_free (path : List Char) :
    ∀ e ∈ splitSlash path, ∀ c ∈ e, IsPathSeparator c = false := by
  induction path with
  | nil => simp [splitSlash]
  | cons d cs ih =>
    by_cases hd : IsPathSeparator d = true
    · simp only [splitSlash, hd, if_true, List.mem_cons]
      rintro e (rfl | he) c hc
      · cases hc
      · exact ih e he c hc
    · have hd1 : IsPathSeparator d = false := by simpa using hd
      simp only [splitSlash, hd1]
      cases hs : splitSlash cs with
      | nil =>
        simp only [Bool.false_eq_true, if_false, List.mem_singleton]
        rintro e rfl c hc
        rw [List.mem_singleton.1 hc]; exact hd1
      | cons e0 es =>
        rw [hs] at ih
        simp only [Bool.false_eq_true, if_false, List.mem_cons]
        rintro e (rfl | he) c hc
        · rcases List.mem_cons.1 hc with rfl | hc
          · exact hd1
          · exact ih e0 (List.mem_cons_self e0 es) c hc
        · exact ih e (List.mem_cons_of_mem e0 he) c hc

theorem cleanBytes_eq (path : List Char) :
    cleanBytes path = finishBuf (runFrom (rootedPath path) path).1 := by
  unfold cleanBytes
  by_cases hp : path = []
  · subst hp; rfl
  · rw [if_neg hp]
    unfold runFrom afterRoot rootedPath finishBuf
    by_cases hr : path.head?.map IsPathSeparator = some true
    · simp only [hr, if_true, decide_True]
      rw [cleanLoop_eq_foldl true _ _ _ (by cases path <;> simp)]
      rfl
    · simp only [hr, if_false, decide_False]
      rw [cleanLoop_eq_foldl false _ _ _ (le_refl _)]
      rfl

theorem splitSlash_ne_nil (path : List Char) : splitSlash path ≠ [] := by
  rw [splitSlash_eq]; exact List.cons_ne_nil _ _

theorem splitSlash_append (x y : List Char) :
    splitSlash (x ++ Separator :: y) = splitSlash x ++ splitSlash y := by
  induction x with
  | nil => rfl
  | cons c x ih =>
    by_cases hc : IsPathSeparator c = true
    · simp [splitSlash, hc, ih]
    · have hc1 : IsPathSeparator c = false := by simpa using hc
      have h1 : ∀ z, splitSlash (c :: z) =
          match splitSlash z with
          | [] => [[c]]
          | e :: es => (c :: e) :: es := by
        intro z; simp [splitSlash, hc1]
      rw [List.cons_append, h1, h1, ih]
      cases hs : splitSlash x with
      | nil => exact absurd hs (splitSlash_ne_nil x)
      | cons e es => rfl

theorem splitSlash_elem (e : List Char) (he : ∀ c ∈ e, IsPathSeparator c = false) :
    splitSlash e = [e] := by
  induction e with
  | nil => rfl
  | cons c e ih =>
    have hc := he c (List.mem_cons_self c e)
    simp [splitSlash, hc, ih (fun d hd => he d (List.mem_cons_of_mem c hd))]

theorem runFrom_append (rooted : Bool) (x y : List Char) (hx : rooted = true → x ≠ []) :
    runFrom rooted (x ++ Separator :: y) =
      (splitSlash y).foldl (stepElem rooted) (runFrom rooted x) := by
  have h : afterRoot rooted (x ++ Separator :: y) = afterRoot rooted x ++ Separator :: y := by
    cases rooted with
    | false => rfl
    | true =>
      cases x with
      | nil => exact absurd rfl (hx rfl)
      | cons c x => rfl
  unfold runFrom
  rw [h, splitSlash_append, List.foldl_append]

theorem isPathSeparator_iff (c : Char) : IsPathSeparator c = true ↔ c = Separator := by
  simp [IsPathSeparator, Separator]

theorem good_sepBefore (rooted : Bool) (S0 : List Char × Nat) (h0 : Good rooted S0) :
    (S0.1 ≠ [] ∧ (rooted = true → S0.1 ≠ [Separator]) ∧ sepBefore rooted S0.1 = Separator :: S0.1) ∨
    (S0 = canon rooted 0 [] ∧ sepBefore rooted S0.1 = S0.1) := by
  obtain ⟨hrun, hroot, hne⟩ := h0
  cases rooted with
  | true =>
    have hn := hne rfl
    by_cases hl : S0.1.length = 1
    · right
      obtain ⟨c, hc⟩ := List.length_eq_one.1 hl
      have hr := hroot hn
      rw [hc] at hr
      simp only [List.reverse_singleton, rootedPath, List.head?_cons, Option.map_some',
        Option.some.injEq, decide_eq_true_eq] at hr
      have hc1 : c = Separator := (isPathSeparator_iff c).1 hr
      subst hc1
      refine ⟨?_, by simp [sepBefore, hl]⟩
      rw [← hrun, hc]; rfl
    · left
      refine ⟨hn, ?_, by simp [sepBefore, hl]⟩
      intro _ h; rw [h] at hl; exact hl rfl
  | false =>
    by_cases hl : S0.1.length = 0
    · right
      have hnil : S0.1 = [] := List.length_eq_zero.1 hl
      refine ⟨?_, by simp [sepBefore, hl]⟩
      rw [← hrun, hnil]; rfl
    · left
      refine ⟨fun h => hl (by rw [h]; rfl), by simp, by simp [sepBefore, hl]⟩

theorem rootedPath_append (x y : List Char) (hx : x ≠ []) :
    rootedPath (x ++ y) = rootedPath x := by
  cases x with
  | nil => exact absurd rfl hx
  | cons c x => rfl

theorem rootedPath_elem (x : List Char) (hfree : ∀ c ∈ x, IsPathSeparator c = false) :
    rootedPath x = false := by
  cases x with
  | nil => rfl
  | cons c x => simp [rootedPath, hfree c (List.mem_cons_self c x)]

theorem stepElem_nil (rooted : Bool) (st : List Char × Nat) : stepElem rooted st [] = st := by
  simp [stepElem]

theorem stepElem_dot (rooted : Bool) (st : List Char × Nat) : stepElem rooted st ['.'] = st := by
  simp [stepElem]

theorem runFrom_base_elem (rooted : Bool) (x : List Char)
    (hfree : ∀ c ∈ x, IsPathSeparator c = false) :
    runFrom rooted ((canon rooted 0 []).1.reverse ++ x) = stepElem rooted (canon rooted 0 []) x := by
  cases rooted with
  | true =>
    show (splitSlash x).foldl (stepElem true) (canon true 0 []) = _
    rw [splitSlash_elem x hfree]; rfl
  | false =>
    show (splitSlash x).foldl (stepElem false) (canon false 0 []) = _
    rw [splitSlash_elem x hfree]; rfl

/-- The state after one more element `x` is good when the state before is. -/
theorem good_last (rooted : Bool) (S0 S : List Char × Nat) (x : List Char)
    (h0 : Good rooted S0) (hx : x ≠ []) (hfree : ∀ c ∈ x, IsPathSeparator c = false)
    (hS : S.1 = x.reverse ++ sepBefore rooted S0.1) (hstep : stepElem rooted S0 x = S) :
    Good rooted S := by
  have hSne : S.1 ≠ [] := by rw [hS]; simp [hx]
  rcases good_sepBefore rooted S0 h0 with ⟨hne, _, hsep⟩ | ⟨hbase, hsep⟩
  · have hstr : S.1.reverse = S0.1.reverse ++ Separator :: x := by
      rw [hS, hsep]; simp
    have hne1 : S0.1.reverse ≠ [] := by simpa using hne
    refine ⟨?_, fun _ => ?_, fun _ => hSne⟩
    · rw [hstr, runFrom_append rooted _ _ (fun _ => hne1), h0.1, splitSlash_elem x hfree]
      exact hstep
    · rw [hstr, rootedPath_append _ _ hne1]
      exact h0.2.1 hne
  · have hstr : S.1.reverse = S0.1.reverse ++ x := by
      rw [hS, hsep]; simp
    refine ⟨?_, fun _ => ?_, fun _ => hSne⟩
    · rw [hstr, hbase, runFrom_base_elem rooted x hfree, ← hbase]
      exact hstep
    · rw [hstr, hbase]
      cases rooted with
      | true => rfl
      | false => exact rootedPath_elem x hfree

theorem good_base (rooted : Bool) : Good rooted (canon rooted 0 []) := by
  cases rooted with
  | true => exact ⟨rfl, fun _ => rfl, fun _ => by simp [canon, baseState]⟩
  | false => exact ⟨rfl, fun h => absurd rfl h, fun h => by cases h⟩

theorem dotsBuf_succ (k : Nat) :
    dotsBuf (k + 1) = ['.', '.'].reverse ++ sepBefore false (dotsBuf k) := by
  by_cases h : (dotsBuf k).length = 0
  · simp [dotsBuf, sepBefore, h]
  · have : 0 < (dotsBuf k).length := Nat.pos_of_ne_zero h
    simp [dotsBuf, sepBefore, h, this]

theorem good_dots (k : Nat) : Good false (canon false k []) := by
  induction k with
  | zero => exact good_base false
  | succ k ih =>
    refine good_last false (canon false k []) _ ['.', '.'] ih (by simp) (by decide) ?_ ?_
    · exact dotsBuf_succ k
    · have := dotdotElem_base false k
      simpa [stepElem] using this

theorem canon_true (k : Nat) (names : List (List Char)) :
    canon true k names = canon true 0 names := rfl

theorem good_canon (rooted : Bool) (k : Nat) (names : List (List Char))
    (hnames : ∀ n ∈ names, IsName n) : Good rooted (canon rooted k names) := by
  induction names using List.reverseRecOn with
  | nil =>
    cases rooted with
    | true => exact good_base true
    | false => exact good_dots k
  | append_singleton ns e ih =>
    have he : IsName e := hnames e (by simp)
    have ih1 := ih (fun n hn => hnames n (List.mem_append_left _ hn))
    refine good_last rooted (canon rooted k ns) _ e ih1 he.1 he.2.2.2 ?_ ?_
    · rw [canon_snoc]; rfl
    · rw [stepElem_name rooted _ e he, canon_snoc]

theorem dropWhile_append_of_all {α : Type} (p : α → Bool) (l1 l2 : List α)
    (h : ∀ a ∈ l1, p a = true) : (l1 ++ l2).dropWhile p = l2.dropWhile p := by
  induction l1 with
  | nil => rfl
  | cons a l ih =>
    have ha := h a (List.mem_cons_self a l)
    simp only [List.cons_append, List.dropWhile_cons, ha, if_true]
    exact ih (fun b hb => h b (List.mem_cons_of_mem a hb))

theorem takeWhile_append_of_all {α : Type} (p : α → Bool) (l1 l2 : List α)
    (h : ∀ a ∈ l1, p a = true) : (l1 ++ l2).takeWhile p = l1 ++ l2.takeWhile p := by
  induction l1 with
  | nil => rfl
  | cons a l ih =>
    have ha := h a (List.mem_cons_self a l)
    simp only [List.cons_append, List.takeWhile_cons, ha, if_true]
    rw [ih (fun b hb => h b (List.mem_cons_of_mem a hb))]

theorem finishBuf_of_ne (out : List Char) (h : out ≠ []) : finishBuf out = out.reverse := by
  unfold finishBuf
  rw [if_neg]
  intro h0
  exact h (List.length_eq_zero.1 h0)

theorem good_canon_zero (rooted : Bool) (S : List Char × Nat) (h : Good rooted S)
    (hnil : S.1 = []) : S = canon rooted 0 [] ∧ rooted = false := by
  cases rooted with
  | true => exact absurd hnil (h.2.2 rfl)
  | false =>
    refine ⟨?_, rfl⟩
    rw [← h.1, hnil]; rfl

theorem cleanBytes_good (rooted : Bool) (S : List Char × Nat) (h : Good rooted S) :
    cleanBytes S.1.reverse = finishBuf S.1 := by
  by_cases hne : S.1 = []
  · rw [hne]; rfl
  · rw [cleanBytes_eq, h.2.1 hne, h.1]

/-- The directory part, the base name and their join, for a state of `Clean`
whose last element is `x`. -/
theorem last_parts (rooted : Bool) (S0 S : List Char × Nat) (x : List Char)
    (h0 : Good rooted S0) (hx : x ≠ []) (hfree : ∀ c ∈ x, IsPathSeparator c = false)
    (hS : S.1 = x.reverse ++ sepBefore rooted S0.1) (hstep : stepElem rooted S0 x = S) :
    cleanBytes (dirPart S.1.reverse) = finishBuf S0.1 ∧
      baseBytes S.1.reverse = x ∧
      cleanBytes (finishBuf S0.1 ++ Separator :: x) = S.1.reverse := by
  have hgood : Good rooted S := good_last rooted S0 S x h0 hx hfree hS hstep
  have hSne : S.1 ≠ [] := by rw [hS]; simp [hx]
  have hfree1 : ∀ c ∈ x.reverse, (fun c => !IsPathSeparator c) c = true := by
    intro c hc
    simp [hfree c (List.mem_reverse.1 hc)]
  have hdir : dirPart S.1.reverse =
      ((sepBefore rooted S0.1).dropWhile (fun c => !IsPathSeparator c)).reverse := by
    unfold dirPart
    rw [List.reverse_reverse, hS, dropWhile_append_of_all _ _ _ hfree1]
  have hxr : x.reverse ≠ [] := by simpa using hx
  have hbase : baseBytes S.1.reverse =
      ((x.reverse ++ (sepBefore rooted S0.1).takeWhile (fun c => !IsPathSeparator c))).reverse := by
    unfold baseBytes
    have hne : S.1.reverse ≠ [] := by simpa using hSne
    rw [if_neg hne, List.reverse_reverse, hS]
    have hstrip : (x.reverse ++ sepBefore rooted S0.1).dropWhile IsPathSeparator =
        x.reverse ++ sepBefore rooted S0.1 := by
      cases hxr1 : x.reverse with
      | nil => exact absurd hxr1 hxr
      | cons c r =>
        have hc : IsPathSeparator c = false :=
          hfree c (List.mem_reverse.1 (by rw [hxr1]; exact List.mem_cons_self c r))
        simp [List.dropWhile_cons, hc]
    simp only [hstrip]
    rw [takeWhile_append_of_all _ _ _ hfree1]
    rw [if_neg]
    simp [hx]
  rcases good_sepBefore rooted S0 h0 with ⟨hne, _, hsep⟩ | ⟨hzero, hsep⟩
  · have hne1 : S0.1.reverse ≠ [] := by simpa using hne
    refine ⟨?_, ?_, ?_⟩
    · rw [hdir, hsep]
      have : (Separator :: S0.1).dropWhile (fun c => !IsPathSeparator c) = Separator :: S0.1 := rfl
      rw [this, List.reverse_cons, cleanBytes_eq, rootedPath_append _ _ hne1, h0.2.1 hne]
      have h2 : S0.1.reverse ++ [Separator] = S0.1.reverse ++ Separator :: [] := rfl
      rw [h2, runFrom_append rooted _ _ (fun _ => hne1), h0.1]
      rfl
    · rw [hbase, hsep]
      have : (Separator :: S0.1).takeWhile (fun c => !IsPathSeparator c) = [] := rfl
      rw [this]; simp
    · rw [finishBuf_of_ne _ hne, cleanBytes_eq, rootedPath_append _ _ hne1, h0.2.1 hne,
        runFrom_append rooted _ _ (fun _ => hne1), h0.1, splitSlash_elem x hfree]
      simp only [List.foldl_cons, List.foldl_nil]
      rw [hstep, finishBuf_of_ne _ hSne]
  · rw [hzero] at hdir hbase hsep hstep hS ⊢
    cases rooted with
    | true =>
      refine ⟨?_, ?_, ?_⟩
      · rw [hdir]; rfl
      · rw [hbase]
        have : (sepBefore true (canon true 0 []).1).takeWhile (fun c => !IsPathSeparator c) =
            [] := rfl
        rw [this]; simp
      · have h1 : finishBuf (canon true 0 []).1 ++ Separator :: x =
            (canon true 0 []).1.reverse ++ Separator :: x := rfl
        have h3 : rootedPath (canon true 0 []).1.reverse = true := rfl
        rw [h1, cleanBytes_eq, rootedPath_append _ _ (by decide), h3,
          runFrom_append true _ _ (fun _ => by decide), splitSlash_elem x hfree]
        have h2 : runFrom true (canon true 0 []).1.reverse = canon true 0 [] := rfl
        rw [h2]
        simp only [List.foldl_cons, List.foldl_nil]
        rw [hstep, finishBuf_of_ne _ hSne]
    | false =>
      refine ⟨?_, ?_, ?_⟩
      · rw [hdir]; rfl
      · rw [hbase]
        have : (sepBefore false (canon false 0 []).1).takeWhile (fun c => !IsPathSeparator c) =
            [] := rfl
        rw [this]; simp
      · have h1 : finishBuf (canon false 0 []).1 ++ Separator :: x =
            ['.'] ++ Separator :: x := rfl
        have h2 : runFrom false ['.'] = canon false 0 [] := rfl
        have h3 : rootedPath ['.'] = false := rfl
        rw [h1, cleanBytes_eq, rootedPath_append _ _ (by decide), h3,
          runFrom_append false _ _ (fun h => by cases h), splitSlash_elem x hfree, h2]
        simp only [List.foldl_cons, List.foldl_nil]
        rw [hstep, finishBuf_of_ne _ hSne]

theorem runFrom_canon (rooted : Bool) (path : List Char) :
    ∃ k names, (∀ n ∈ names, IsName n) ∧ runFrom rooted path = canon rooted k names := by
  unfold runFrom
  exact foldl_stepElem_canon rooted _ (splitSlash_free _) 0 [] (by simp)

theorem cleanBytes_ne_nil (path : List Char) : cleanBytes path ≠ [] := by
  rw [cleanBytes_eq]
  unfold finishBuf
  split
  · simp
  · rename_i h
    intro h1
    apply h
    rw [List.reverse_eq_nil_iff] at h1
    rw [h1]; rfl

/-- Joining the directory part and the base name of a state of `Clean` gives
the state back. -/
theorem join_parts_canon (rooted : Bool) (k : Nat) (names : List (List Char))
    (hnames : ∀ n ∈ names, IsName n) :
    cleanBytes (cleanBytes (dirPart (finishBuf (canon rooted k names).1)) ++
        Separator :: baseBytes (finishBuf (canon rooted k names).1)) =
      finishBuf (canon rooted k names).1 := by
  rcases List.eq_nil_or_concat names with hn | ⟨ns, e, hn⟩
  · subst hn
    cases rooted with
    | true =>
      have h : (canon true k []).1 = [Separator] := rfl
      rw [h]
      decide
    | false =>
      cases k with
      | zero =>
        have h : (canon false 0 []).1 = [] := rfl
        rw [h]
        decide
      | succ j =>
        have hS : (canon false (j + 1) []).1 =
            ['.', '.'].reverse ++ sepBefore false (canon false j []).1 := dotsBuf_succ j
        have hstep : stepElem false (canon false j []) ['.', '.'] = canon false (j + 1) [] := by
          have := dotdotElem_base false j
          simpa [stepElem] using this
        obtain ⟨h1, h2, h3⟩ := last_parts false (canon false j []) (canon false (j + 1) [])
          ['.', '.'] (good_dots j) (by simp) (by decide) hS hstep
        have hne : (canon false (j + 1) []).1 ≠ [] := by rw [hS]; simp
        rw [finishBuf_of_ne _ hne, h1, h2, h3]
  · subst hn
    rw [List.concat_eq_append] at hnames ⊢
    have he : IsName e := hnames e (by simp)
    have hns : ∀ n ∈ ns, IsName n := fun n hn => hnames n (List.mem_append_left _ hn)
    have hS : (canon rooted k (ns ++ [e])).1 =
        e.reverse ++ sepBefore rooted (canon rooted k ns).1 := by
      rw [canon_snoc]; rfl
    have hstep : stepElem rooted (canon rooted k ns) e = canon rooted k (ns ++ [e]) := by
      rw [stepElem_name rooted _ e he, canon_snoc]
    obtain ⟨h1, h2, h3⟩ := last_parts rooted (canon rooted k ns) (canon rooted k (ns ++ [e])) e
      (good_canon rooted k ns hns) he.1 he.2.2.2 hS hstep
    have hne : (canon rooted k (ns ++ [e])).1 ≠ [] := by rw [hS]; simp [he.1]
    rw [finishBuf_of_ne _ hne, h1, h2, h3]

theorem join_parts_cleanBytes (y : List Char) :
    cleanBytes (cleanBytes (dirPart (cleanBytes y)) ++ Separator :: baseBytes (cleanBytes y)) =
      cleanBytes y := by
  obtain ⟨k, names, hnames, h⟩ := runFrom_canon (rootedPath y) y
  rw [cleanBytes_eq y, h]
  exact join_parts_canon _ k names hnames

/-- The directory part of a cleaned rooted path is the cleaned parent `path/..`. -/
theorem dir_cleanBytes_rooted (p : List Char) (hp : rootedPath p = true) :
    cleanBytes (dirPart (cleanBytes p)) = cleanBytes (p ++ Separator :: ['.', '.']) := by
  have hpne : p ≠ [] := by
    intro h; rw [h] at hp; cases hp
  obtain ⟨k, names, hnames, h⟩ := runFrom_canon true p
  have hr : cleanBytes (p ++ Separator :: ['.', '.']) =
      finishBuf (dotdotElem true (canon true k names)).1 := by
    rw [cleanBytes_eq, rootedPath_append _ _ hpne, hp, runFrom_append true _ _ (fun _ => hpne), h]
    rfl
  rw [hr, cleanBytes_eq p, hp, h]
  rcases List.eq_nil_or_concat names with hn | ⟨ns, e, hn⟩
  · subst hn; rfl
  · subst hn
    rw [List.concat_eq_append] at hnames ⊢
    have he : IsName e := hnames e (by simp)
    have hns : ∀ n ∈ ns, IsName n := fun n hn => hnames n (List.mem_append_left _ hn)
    have hS : (canon true k (ns ++ [e])).1 =
        e.reverse ++ sepBefore true (canon true k ns).1 := by
      rw [canon_snoc]; rfl
    have hstep : stepElem true (canon true k ns) e = canon true k (ns ++ [e]) := by
      rw [stepElem_name true _ e he, canon_snoc]
    obtain ⟨h1, _, _⟩ := last_parts true (canon true k ns) (canon true k (ns ++ [e])) e
      (good_canon true k ns hns) he.1 he.2.2.2 hS hstep
    have hne : (canon true k (ns ++ [e])).1 ≠ [] := by rw [hS]; simp [he.1]
    rw [finishBuf_of_ne _ hne, h1, dotdotElem_canon_snoc true k ns e he]

theorem Join_pair (a b : String) (ha : a ≠ "") : Join [a, b] = Clean (a ++ "/" ++ b) := by
  unfold Join
  simp only [List.dropWhile_cons, decide_eq_true_eq, ha, if_false]
  rfl

theorem Clean_ne_empty (path : String) : Clean path ≠ "" := by
  intro h
  have := congrArg String.data h
  exact cleanBytes_ne_nil path.data this

theorem Dir_ne_empty (path : String) : Dir path ≠ "" := by
  intro h
  have := congrArg String.data h
  exact cleanBytes_ne_nil _ this

/-- For every path `y`, joining the directory and the base name of `Clean y`
gives `Clean y` again. -/
theorem Join_Dir_Base_Clean (y : String) :
    Join [Dir (Clean y), Base (Clean y)] = Clean y := by
  rw [Join_pair _ _ (Dir_ne_empty _)]
  apply String.ext
  show cleanBytes (Dir (Clean y) ++ "/" ++ Base (Clean y)).data = cleanBytes y.data
  rw [String.data_append, String.data_append]
  show cleanBytes ((cleanBytes (dirPart (cleanBytes y.data)) ++ [Separator]) ++
    baseBytes (cleanBytes y.data)) = cleanBytes y.data
  rw [List.append_assoc]
  exact join_parts_cleanBytes y.data

/-- For every absolute path `p`, the directory of `Clean p` is the cleaned
parent `p/..`. -/
theorem Dir_Clean_abs (p : String) (hp : IsAbs p = true) :
    Dir (Clean p) = Clean (p ++ "/..") := by
  apply String.ext
  show cleanBytes (dirPart (cleanBytes p.data)) = cleanBytes (p ++ "/..").data
  rw [String.data_append]
  apply dir_cleanBytes_rooted
  unfold IsAbs at hp
  unfold rootedPath
  cases hd : p.data with
  | nil => rw [hd] at hp; simp at hp
  | cons c r =>
    rw [hd] at hp
    simp only [List.head?_cons, Option.some.injEq, decide_eq_true_eq] at hp
    subst hp
    rfl

theorem dirPart_append_lastElem (p : List Char) : dirPart p ++ lastElem p = p := by
  unfold dirPart lastElem
  rw [← List.reverse_append, List.takeWhile_append_dropWhile, List.reverse_reverse]

theorem dirPart_cases (p : List Char) : dirPart p = [] ∨ ∃ q, dirPart p = q ++ [Separator] := by
  unfold dirPart
  cases h : p.reverse.dropWhile (fun c => !IsPathSeparator c) with
  | nil => left; rfl
  | cons c d =>
    right
    have hc := List.head_dropWhile_not (fun c => !IsPathSeparator c) p.reverse
    simp only [h] at hc
    have hc1 : c = Separator := (isPathSeparator_iff c).1 (by simpa using hc)
    subst hc1
    exact ⟨d.reverse, by simp⟩

theorem baseBytes_of_name (p : List Char) (h : IsName (lastElem p)) :
    baseBytes p = lastElem p := by
  have hne : lastElem p ≠ [] := h.1
  unfold lastElem at hne
  unfold baseBytes lastElem
  cases hr : p.reverse with
  | nil => rw [hr] at hne; simp at hne
  | cons c r =>
    have hp : p ≠ [] := by
      intro h0; rw [h0] at hr; cases hr
    rw [hr] at hne
    have hc : IsPathSeparator c = false := by
      by_cases hc : IsPathSeparator c = true
      · simp [List.takeWhile_cons, hc] at hne
      · simpa using hc
    rw [if_neg hp]
    have hstrip : (c :: r).dropWhile IsPathSeparator = c :: r := by
      simp [List.dropWhile_cons, hc]
    simp only [hstrip]
    rw [if_neg]
    simpa using hne

theorem takeWhile_until_sep (q y : List Char) :
    (q ++ Separator :: y).takeWhile (fun c => !IsPathSeparator c) =
      q.takeWhile (fun c => !IsPathSeparator c) := by
  induction q with
  | nil => rfl
  | cons c q ih =>
    by_cases hc : IsPathSeparator c = true
    · simp [List.takeWhile_cons, hc]
    · have hc1 : IsPathSeparator c = false := by simpa using hc
      simp only [List.cons_append, List.takeWhile_cons, hc1, Bool.not_false, if_true]
      rw [ih]

theorem lastElem_append (x p : List Char) : lastElem (x ++ Separator :: p) = lastElem p := by
  unfold lastElem
  congr 1
  rw [List.reverse_append, List.reverse_cons, List.append_assoc]
  exact takeWhile_until_sep _ _

/-- Cleaning a path whose last element is a name: one more step after cleaning
its directory part. -/
theorem runFrom_of_name (p : List Char) (h : IsName (lastElem p)) :
    runFrom (rootedPath p) p =
        stepElem (rootedPath p) (runFrom (rootedPath p) (dirPart p)) (lastElem p) ∧
      cleanBytes (dirPart p) = finishBuf (runFrom (rootedPath p) (dirPart p)).1 := by
  have hfree := h.2.2.2
  have hsplit := dirPart_append_lastElem p
  rcases dirPart_cases p with hd | ⟨q, hd⟩
  · rw [hd] at hsplit ⊢
    rw [List.nil_append] at hsplit
    have hr : rootedPath p = false := by
      rw [← hsplit]; exact rootedPath_elem _ hfree
    rw [hr]
    refine ⟨?_, rfl⟩
    conv_lhs => rw [← hsplit]
    show (splitSlash (lastElem p)).foldl (stepElem false) (canon false 0 []) = _
    rw [splitSlash_elem _ hfree]
    rfl
  · rw [hd] at hsplit ⊢
    have hp : p = q ++ Separator :: lastElem p := by
      conv_lhs => rw [← hsplit]
      simp
    by_cases hq : q = []
    · subst hq
      rw [List.nil_append] at hp ⊢
      have hr : rootedPath p = true := by rw [hp]; rfl
      rw [hr]
      refine ⟨?_, rfl⟩
      conv_lhs => rw [hp]
      show (splitSlash (lastElem p)).foldl (stepElem true) (canon true 0 []) = _
      rw [splitSlash_elem _ hfree]
      rfl
    · have hr : rootedPath p = rootedPath q := by
        conv_lhs => rw [hp]
        exact rootedPath_append _ _ hq
      have h1 : runFrom (rootedPath q) (q ++ [Separator]) = runFrom (rootedPath q) q := by
        have := runFrom_append (rootedPath q) q [] (fun _ => hq)
        rw [this]
        simp [splitSlash, stepElem]
      rw [hr]
      refine ⟨?_, ?_⟩
      · conv_lhs => rw [hp]
        rw [runFrom_append _ _ _ (fun _ => hq), splitSlash_elem _ hfree, h1]
        rfl
      · rw [cleanBytes_eq, rootedPath_append _ _ hq]

/-- For a path whose last element is a name, cleaning keeps the directory and
the base name. -/
theorem parts_of_name (p : List Char) (h : IsName (lastElem p)) :
    cleanBytes (dirPart (cleanBytes p)) = cleanBytes (dirPart p) ∧
      baseBytes (cleanBytes p) = lastElem p := by
  obtain ⟨hrun, hdir⟩ := runFrom_of_name p h
  obtain ⟨k, names, hnames, hc⟩ := runFrom_canon (rootedPath p) (dirPart p)
  rw [hc] at hrun hdir
  have hstep : stepElem (rootedPath p) (canon (rootedPath p) k names) (lastElem p) =
      canon (rootedPath p) k (names ++ [lastElem p]) := by
    rw [stepElem_name _ _ _ h, canon_snoc]
  have hS : (canon (rootedPath p) k (names ++ [lastElem p])).1 =
      (lastElem p).reverse ++ sepBefore (rootedPath p) (canon (rootedPath p) k names).1 := by
    rw [canon_snoc]; rfl
  obtain ⟨h1, h2, _⟩ := last_parts (rootedPath p) (canon (rootedPath p) k names)
    (canon (rootedPath p) k (names ++ [lastElem p])) (lastElem p)
    (good_canon _ k names hnames) h.1 h.2.2.2 hS hstep
  have hne : (canon (rootedPath p) k (names ++ [lastElem p])).1 ≠ [] := by
    rw [hS]; simp [h.1]
  rw [cleanBytes_eq p, hrun, hstep, finishBuf_of_ne _ hne, h1, h2, hdir]
  exact ⟨rfl, rfl⟩

theorem Base_of_name (p : String) (h : IsName (lastElem p.data)) :
    Base p = String.mk (lastElem p.data) := by
  unfold Base
  rw [baseBytes_of_name p.data h]

theorem Clean_parts_of_name (p : String) (h : IsName (lastElem p.data)) :
    Dir (Clean p) = Dir p ∧ Base (Clean p) = Base p := by
  obtain ⟨h1, h2⟩ := parts_of_name p.data h
  refine ⟨?_, ?_⟩
  · apply String.ext
    exact h1
  · rw [Base_of_name p h]
    apply String.ext
    exact h2

theorem IsAbs_ne_empty (p : String) (h : IsAbs p = true) : p ≠ "" := by
  intro h0
  rw [h0] at h
  cases h

theorem Abs_eq_Clean (w : World) (p : String) (t : Trace) (a : String) (t1 : Trace)
    (hwd : ∀ i wd, w.Getwd i = .ok wd → IsAbs wd = true)
    (habs : Abs w p t = ((a, none), t1)) :
    a = Clean p ∨ ∃ wd, a = Clean (wd ++ "/" ++ p) := by
  unfold Abs at habs
  by_cases hp : IsAbs p = true
  · rw [if_pos hp] at habs
    simp only [Prod.mk.injEq, and_true] at habs
    exact Or.inl habs.1.symm
  · rw [if_neg hp] at habs
    cases hg : w.Getwd (calls Event.isGetwd t) with
    | error e => simp [hg] at habs
    | ok wd =>
      simp only [hg, Prod.mk.injEq, and_true] at habs
      right
      refine ⟨wd, ?_⟩
      rw [← habs.1, Join_pair _ _ (IsAbs_ne_empty wd (hwd _ wd hg))]

/-! ## What the error paths before the creation call do -/

/-- The three error returns of `CreatePythonPod` before the creation call: the
error of the kubeconfig loader, of the clientset constructor or of the path
resolution is returned with a nil pod, and the trace holds no call to the
cluster. -/
theorem CreatePythonPod_local_error (w : World) (kubeconfigPath scriptPath : String)
    (t : Trace) (e : Error)
    (h : w.BuildConfigFromFlags (calls Event.isBuildConfig t) "" kubeconfigPath = .error e ∨
      (∃ config, w.BuildConfigFromFlags (calls Event.isBuildConfig t) "" kubeconfigPath =
          .ok config ∧
        (w.NewForConfig (calls Event.isNewForConfig (t ++ [Event.buildConfig "" kubeconfigPath]))
            config = .error e ∨
          ∃ cs t3, w.NewForConfig
              (calls Event.isNewForConfig (t ++ [Event.buildConfig "" kubeconfigPath]))
              config = .ok cs ∧
            Abs w scriptPath (t ++ [Event.buildConfig "" kubeconfigPath] ++
              [Event.newForConfig (some config)]) = (("", some e), t3)))) :
    ∃ evs, CreatePythonPod w kubeconfigPath scriptPath t = ((none, some e), t ++ evs) ∧
      ∀ x ∈ evs, Local x := by
  obtain ⟨evs, hloc, hcases⟩ := CreatePythonPod_trace w kubeconfigPath scriptPath t
  have hres : (CreatePythonPod w kubeconfigPath scriptPath t).1 = (none, some e) ∧
      ∀ a, (CreatePythonPod w kubeconfigPath scriptPath t).2 ≠
        t ++ evs ++ [Event.create "default" (podDefinition scriptPath a)] := by
    have hno : ∀ (s : Trace) a, calls Event.isCreate s = calls Event.isCreate t →
        s ≠ t ++ evs ++ [Event.create "default" (podDefinition scriptPath a)] := by
      intro s a hs hh
      have := congrArg (calls Event.isCreate) hh
      rw [hs, calls_append, calls_append,
        calls_of_all_false _ _ (fun x hx => (hloc x hx).1)] at this
      simp [calls, Event.isCreate] at this
    rcases h with h | ⟨config, hc, h | ⟨cs, t3, hn, ha⟩⟩
    · simp only [CreatePythonPod, h]
      exact ⟨trivial, fun a => hno _ a (by rw [calls_append]; rfl)⟩
    · simp only [CreatePythonPod, hc, h]
      exact ⟨trivial, fun a => hno _ a (by rw [calls_append, calls_append]; rfl)⟩
    · obtain ⟨gs, hgs, hg⟩ := Abs_trace w scriptPath (t ++ [Event.buildConfig "" kubeconfigPath] ++
        [Event.newForConfig (some config)])
      rw [ha] at hgs
      simp only at hgs
      simp only [CreatePythonPod, hc, hn, ha]
      refine ⟨trivial, fun a => hno _ a ?_⟩
      rw [hgs, calls_append, calls_append, calls_append,
        calls_of_all_false Event.isCreate gs (fun x hx => by rw [hg x hx]; rfl)]
      rfl
  rcases hcases with ⟨ht, _⟩ | ⟨_, a, _, ht, _⟩ | ⟨_, a, _, ht, _⟩
  · exact ⟨evs, Prod.ext hres.1 ht, hloc⟩
  · exact absurd ht (hres.2 a)
  · exact absurd ht (hres.2 a)

/-- When line 122 of `main` returns and `CreatePythonPod` returns the error `e`,
the run dies of `panic(e)` with the trace of `CreatePythonPod`. -/
theorem main_panics_with_CreatePythonPod_error (w : World) (currentDir : String)
    (clientset : Option Clientset) (pod : Option Pod) (e : Error) (t3 : Trace) (fuel : Nat)
    (hwd : w.Getwd 0 = .ok currentDir)
    (hmain : mainClientset w (w.BuildConfigFromFlags 0 "" (mainKubeconfig w)).toOption
      [Event.getwd, Event.buildConfig "" (mainKubeconfig w)] = some clientset)
    (hpod : CreatePythonPod w (mainKubeconfig w) (Join [currentDir, "script.py"])
      (mainPrelude w) = ((pod, some e), t3)) :
    main w fuel = some (Exit.panic e, t3) := by
  simp only [mainKubeconfig, mainPrelude] at hpod hmain
  simp only [main, hwd, hmain, hpod]

/-! ## The claims -/

/-- C1: a run of `WaitForPodCompletion` from trace `t` in which the first `k`
status queries succeed with a phase that is neither "Succeeded" nor "Failed"
(Pending and Running are such phases) and the next one succeeds with the phase
"Succeeded" or "Failed" returns a nil error as soon as the loop is given more
than `k` iterations, having issued `k + 1` status queries and slept `k` times,
for 5 seconds after each non-terminal answer and not after the terminal one;
given `k` iterations or fewer, all of which observe a non-terminal phase, it
has not returned. -/
theorem WaitForPodCompletion_returns_at_first_terminal (w : World) (cs : Clientset)
    (podName : String) (t : Trace) (k fuel : Nat)
    (hpending : ∀ i, i < k → ∃ pod,
      w.Get (calls Event.isGet t + i) cs "default" podName = .ok pod ∧
        pod.Status.Phase ≠ "Succeeded" ∧ pod.Status.Phase ≠ "Failed")
    (hterminal : ∃ pod, w.Get (calls Event.isGet t + k) cs "default" podName = .ok pod ∧
      (pod.Status.Phase = "Succeeded" ∨ pod.Status.Phase = "Failed")) :
    WaitForPodCompletion w (some cs) podName fuel t =
        (if k < fuel then
          some (.returned none, t ++ pollRounds podName k ++ [Event.get "default" podName])
        else none) ∧
      calls Event.isGet (pollRounds podName k ++ [Event.get "default" podName]) = k + 1 ∧
      calls Event.isSleep (pollRounds podName k ++ [Event.get "default" podName]) = k ∧
      (∀ e ∈ pollRounds podName k ++ [Event.get "default" podName],
        e.isSleep = true → e = Event.sleep (5 * 1000000000)) ∧
      "Pending" ≠ "Succeeded" ∧ "Pending" ≠ "Failed" ∧
      "Running" ≠ "Succeeded" ∧ "Running" ≠ "Failed" := by
  have hkeep : ∀ i, i < k →
      keepsPolling (w.Get (calls Event.isGet t + i) cs "default" podName) = true := by
    intro i hi
    obtain ⟨pod, hget, h1, h2⟩ := hpending i hi
    rw [hget]
    simp [keepsPolling, terminalPhase, PodSucceeded, PodFailed, h1, h2]
  have hpod : ∃ pod, w.Get (calls Event.isGet t + k) cs "default" podName = .ok pod ∧
      terminalPhase pod = true := by
    obtain ⟨pod, hget, h⟩ := hterminal
    refine ⟨pod, hget, ?_⟩
    rcases h with h | h <;> simp [terminalPhase, PodSucceeded, PodFailed, h]
  refine ⟨?_, ?_, ?_, ?_, by decide, by decide, by decide, by decide⟩
  · by_cases hk : k < fuel
    · rw [if_pos hk]
      obtain ⟨f, rfl⟩ : ∃ f, fuel = (f + 1) + k := ⟨fuel - k - 1, by omega⟩
      rw [wait_rounds w cs podName k (f + 1) t hkeep, wait_succ]
      have hc : calls Event.isGet (t ++ pollRounds podName k) = calls Event.isGet t + k := by
        rw [calls_append, calls_get_pollRounds]
      rw [hc]
      obtain ⟨pod, hget, ht⟩ := hpod
      rw [hget]
      simp [ht]
    · rw [if_neg hk]
      exact wait_still_polling w cs podName fuel t (fun i hi => hkeep i (by omega))
  · rw [calls_append, calls_get_pollRounds]; rfl
  · rw [calls_append, calls_sleep_pollRounds]; rfl
  · intro e he hs
    rw [List.mem_append] at he
    rcases he with he | he
    · clear hpending hterminal hkeep hpod
      induction k with
      | zero => simp [pollRounds] at he
      | succ k ih =>
        simp only [pollRounds, List.mem_cons] at he
        rcases he with rfl | rfl | he
        · simp [Event.isSleep] at hs
        · rfl
        · exact ih he
    · simp only [List.mem_singleton] at he
      subst he
      simp [Event.isSleep] at hs

/-- Witness of C1: the answers Pending, Pending, Running, Succeeded give four
status queries, three sleeps of 5 seconds and a nil error; the answers Running,
Failed give two status queries, one sleep and a nil error. -/
theorem WaitForPodCompletion_returns_at_first_terminal_witness :
    (WaitForPodCompletion (phasesWorld ["Pending", "Pending", "Running", "Succeeded"])
        (some ⟨0⟩) "python-script-abcde" 4 [] =
      (if 3 < 4 then
        some (.returned none,
          [] ++ [Event.get "default" "python-script-abcde", Event.sleep (5 * Second),
           Event.get "default" "python-script-abcde", Event.sleep (5 * Second),
           Event.get "default" "python-script-abcde", Event.sleep (5 * Second)] ++
           [Event.get "default" "python-script-abcde"])
      else none)) ∧
    (WaitForPodCompletion (phasesWorld ["Running", "Failed"])
        (some ⟨0⟩) "python-script-abcde" 2 [] =
      (if 1 < 2 then
        some (.returned none,
          [] ++ [Event.get "default" "python-script-abcde", Event.sleep (5 * Second)] ++
           [Event.get "default" "python-script-abcde"])
      else none)) ∧
    WaitForPodCompletion (phasesWorld ["Running", "Failed"])
        (some ⟨0⟩) "python-script-abcde" 1 [] = none :=
  ⟨(WaitForPodCompletion_returns_at_first_terminal
      (phasesWorld ["Pending", "Pending", "Running", "Succeeded"]) ⟨0⟩
      "python-script-abcde" [] 3 4
      (fun i hi => by
        interval_cases i
        · exact ⟨podInPhase "python-script-abcde" "Pending", rfl, by decide, by decide⟩
        · exact ⟨podInPhase "python-script-abcde" "Pending", rfl, by decide, by decide⟩
        · exact ⟨podInPhase "python-script-abcde" "Running", rfl, by decide, by decide⟩)
      ⟨podInPhase "python-script-abcde" "Succeeded", rfl, Or.inl rfl⟩).1,
   (WaitForPodCompletion_returns_at_first_terminal
      (phasesWorld ["Running", "Failed"]) ⟨0⟩ "python-script-abcde" [] 1 2
      (fun i hi => by
        interval_cases i
        exact ⟨podInPhase "python-script-abcde" "Running", rfl, by decide, by decide⟩)
      ⟨podInPhase "python-script-abcde" "Failed", rfl, Or.inr rfl⟩).1,
   (WaitForPodCompletion_returns_at_first_terminal
      (phasesWorld ["Running", "Failed"]) ⟨0⟩ "python-script-abcde" [] 1 1
      (fun i hi => by
        interval_cases i
        exact ⟨podInPhase "python-script-abcde" "Running", rfl, by decide, by decide⟩)
      ⟨podInPhase "python-script-abcde" "Failed", rfl, Or.inr rfl⟩).1⟩

/-- C2: when the log stream delivers the chunks `chunks` and then ends without
error, `GetPodLogs` returns a nil error and the concatenation of the chunks in
order, unit for unit whatever the chunk boundaries; the stream is requested once
and closed.  A stream of no chunks, or of empty chunks only, gives the empty
string. -/
theorem GetPodLogs_returns_concatenation (w : World) (cs : Clientset) (podName : String)
    (t : Trace) (chunks : List String)
    (hstream : w.Stream cs "default" podName = .ok ⟨chunks, none⟩) :
    GetPodLogs w (some cs) podName t =
        (.returned (String.join chunks, none),
          t ++ [Event.stream "default" podName] ++ [Event.close]) ∧
      (String.join chunks).data = (chunks.map String.data).flatten ∧
      ((∀ c ∈ chunks, c = "") → String.join chunks = "") := by
  refine ⟨?_, join_data chunks, join_empty chunks⟩
  rw [GetPodLogs_eq, hstream]

/-- Witness of C2: the chunks "hel", "", "lo\n" are returned as "hello\n". -/
theorem GetPodLogs_returns_concatenation_witness :
    (logsWorld (.ok ⟨["hel", "", "lo\n"], none⟩)).Stream ⟨0⟩ "default" "python-script-abcde" =
        .ok ⟨["hel", "", "lo\n"], none⟩ ∧
      GetPodLogs (logsWorld (.ok ⟨["hel", "", "lo\n"], none⟩)) (some ⟨0⟩)
          "python-script-abcde" [] =
        (.returned ("hello\n", none),
          [Event.stream "default" "python-script-abcde", Event.close]) :=
  ⟨rfl, (GetPodLogs_returns_concatenation (logsWorld (.ok ⟨["hel", "", "lo\n"], none⟩)) ⟨0⟩
      "python-script-abcde" [] ["hel", "", "lo\n"] rfl).1⟩

/-- C7: `GetPodLogs` is all-or-nothing.  When the log-stream request fails with
`e` it returns the empty string and `e`; when the stream fails with `e` after
delivering any chunks it returns the empty string and `e` (and has closed the
stream); and whenever it returns a non-empty string the error it returns is
nil. -/
theorem GetPodLogs_all_or_nothing (w : World) (cs : Clientset) (podName : String) (t : Trace) :
    (∀ e, w.Stream cs "default" podName = .error e →
      GetPodLogs w (some cs) podName t =
        (.returned ("", some e), t ++ [Event.stream "default" podName])) ∧
    (∀ chunks e, w.Stream cs "default" podName = .ok ⟨chunks, some e⟩ →
      GetPodLogs w (some cs) podName t =
        (.returned ("", some e), t ++ [Event.stream "default" podName] ++ [Event.close])) ∧
    (∀ s err t1, GetPodLogs w (some cs) podName t = (.returned (s, err), t1) →
      s ≠ "" → err = none) := by
  refine ⟨?_, ?_, ?_⟩
  · intro e h
    rw [GetPodLogs_eq, h]
  · intro chunks e h
    rw [GetPodLogs_eq, h]
  · intro s err t1 h hs
    rw [GetPodLogs_eq] at h
    cases hr : w.Stream cs "default" podName with
    | error e =>
      rw [hr] at h
      simp only [Prod.mk.injEq, Outcome.returned.injEq] at h
      exact absurd h.1.1.symm hs
    | ok podLogs =>
      rw [hr] at h
      cases he : podLogs.err with
      | some e =>
        simp only [he, Prod.mk.injEq, Outcome.returned.injEq] at h
        exact absurd h.1.1.symm hs
      | none =>
        simp only [he, Prod.mk.injEq, Outcome.returned.injEq] at h
        exact h.1.2.symm

/-- Witness of C7: a stream that breaks after "par" and "tial" gives the empty
string and the read error. -/
theorem GetPodLogs_all_or_nothing_witness :
    (logsWorld (.ok ⟨["par", "tial"], some ⟨"connection reset"⟩⟩)).Stream ⟨0⟩ "default"
        "python-script-abcde" = .ok ⟨["par", "tial"], some ⟨"connection reset"⟩⟩ ∧
      GetPodLogs (logsWorld (.ok ⟨["par", "tial"], some ⟨"connection reset"⟩⟩)) (some ⟨0⟩)
          "python-script-abcde" [] =
        (.returned ("", some ⟨"connection reset"⟩),
          [Event.stream "default" "python-script-abcde"] ++ [Event.close]) :=
  ⟨rfl, (GetPodLogs_all_or_nothing (logsWorld (.ok ⟨["par", "tial"], some ⟨"connection reset"⟩⟩))
      ⟨0⟩ "python-script-abcde" []).2.1 ["par", "tial"] ⟨"connection reset"⟩ rfl⟩

/-- C6: in every run of `main` that completes successfully, exactly one
pod-creation call is issued, in the namespace "default"; every status query and
the one log-stream request name the pod that this call returned (the name the
cluster assigned) and the namespace "default"; and at least one status query is
issued. -/
theorem main_one_pod_one_handle (w : World) (fuel : Nat) (out : String) (t : Trace)
    (h : main w fuel = some (Exit.ok out, t)) :
    ∃ cs spec pod, w.Create cs "default" spec = .ok pod ∧
      t.filter Event.isCreate = [Event.create "default" spec] ∧
      (∀ ns name, Event.get ns name ∈ t → ns = "default" ∧ name = pod.ObjectMeta.Name) ∧
      (∀ ns name, Event.stream ns name ∈ t → ns = "default" ∧ name = pod.ObjectMeta.Name) ∧
      calls Event.isStream t = 1 ∧ 1 ≤ calls Event.isGet t := by
  obtain ⟨clientset, pod, t3, t4, logs, hsub, hwait, hlogs, _⟩ := main_ok_inv w fuel out t h
  obtain ⟨evs, cs, spec, hloc, ht3, hcreate⟩ := submitted_trace w clientset pod t3 hsub
  obtain ⟨evsW, ht4, hW⟩ := wait_trace w clientset pod.ObjectMeta.Name fuel t3 _ t4 hwait
  have ht := GetPodLogs_ok_trace w clientset _ logs t4 t hlogs
  have hq := wait_returned_queries w clientset pod.ObjectMeta.Name fuel t3 none t4 hwait
  have hW1 : ∀ e ∈ evsW, e.isCreate = false ∧ e.isStream = false := by
    intro e he
    rcases hW e he with rfl | rfl <;> exact ⟨rfl, rfl⟩
  have hpre : ∀ e ∈ mainPrelude w, Local e := by
    intro e he
    simp only [mainPrelude, List.mem_cons, List.mem_singleton, List.not_mem_nil, or_false] at he
    rcases he with rfl | rfl | rfl <;> exact ⟨rfl, rfl, rfl, rfl⟩
  subst ht ht4 ht3
  refine ⟨cs, spec, pod, hcreate, ?_, ?_, ?_, ?_, ?_⟩
  · simp only [List.filter_append]
    rw [filter_of_all_false _ _ (fun e he => (hpre e he).1),
      filter_of_all_false _ _ (fun e he => (hloc e he).1),
      filter_of_all_false _ _ (fun e he => (hW1 e he).1)]
    rfl
  · intro ns name hmem
    simp only [List.mem_append, List.mem_singleton] at hmem
    rcases hmem with ((((hm | hm) | hm) | hm) | hm) | hm
    · have := (hpre _ hm).2.1; simp [Event.isGet] at this
    · have := (hloc _ hm).2.1; simp [Event.isGet] at this
    · cases hm
    · rcases hW _ hm with hh | hh
      · simp only [Event.get.injEq] at hh; exact hh
      · cases hh
    · cases hm
    · cases hm
  · intro ns name hmem
    simp only [List.mem_append, List.mem_singleton] at hmem
    rcases hmem with ((((hm | hm) | hm) | hm) | hm) | hm
    · have := (hpre _ hm).2.2.1; simp [Event.isStream] at this
    · have := (hloc _ hm).2.2.1; simp [Event.isStream] at this
    · cases hm
    · have := (hW1 _ hm).2; simp [Event.isStream] at this
    · simp only [Event.stream.injEq] at hm; exact hm
    · cases hm
  · simp only [calls_append]
    rw [calls_of_all_false _ _ (fun e he => (hpre e he).2.2.1),
      calls_of_all_false _ _ (fun e he => (hloc e he).2.2.1),
      calls_of_all_false _ _ (fun e he => (hW1 e he).2)]
    rfl
  · rw [calls_append, calls_append]
    omega

/-- Witness of C6: the run of the scenario creates one pod and addresses
`python-script-abcde` in every later call. -/
theorem main_one_pod_one_handle_witness :
    main scenarioWorld 3 = some (Exit.ok "Pod logs:\n hello\n\n", scenarioTrace) ∧
    ∃ cs spec pod, scenarioWorld.Create cs "default" spec = .ok pod ∧
      scenarioTrace.filter Event.isCreate = [Event.create "default" spec] ∧
      (∀ ns name, Event.get ns name ∈ scenarioTrace →
        ns = "default" ∧ name = pod.ObjectMeta.Name) ∧
      (∀ ns name, Event.stream ns name ∈ scenarioTrace →
        ns = "default" ∧ name = pod.ObjectMeta.Name) ∧
      calls Event.isStream scenarioTrace = 1 ∧ 1 ≤ calls Event.isGet scenarioTrace :=
  ⟨rfl, main_one_pod_one_handle scenarioWorld 3 "Pod logs:\n hello\n\n" scenarioTrace rfl⟩

/-- C8, as stated, fails: in the scenario of the specification the retriever
returns "hello\n" and the run succeeds, but the text written to standard output
does not begin with the label "Pod logs:\n" followed directly by "hello\n":
`fmt.Println` puts a space between its two operands. -/
theorem main_output_not_label_then_logs :
    main scenarioWorld 3 = some (Exit.ok "Pod logs:\n hello\n\n", scenarioTrace) ∧
      GetPodLogs scenarioWorld (some ⟨0⟩) "python-script-abcde" (scenarioTrace.take 11) =
        (.returned ("hello\n", none), scenarioTrace) ∧
      ¬ beginsWith "Pod logs:\n hello\n\n" ("Pod logs:\n" ++ "hello\n") :=
  ⟨rfl, rfl, by decide⟩

/-- C8, amended: in every successful run of `main`, with `s` the string that
`GetPodLogs` returned, the text written to standard output is the label
"Pod logs:\n", one space, `s`, and a newline, in this order and nothing else. -/
theorem main_output_label_space_logs (w : World) (fuel : Nat) (out : String) (t : Trace)
    (h : main w fuel = some (Exit.ok out, t)) :
    ∃ clientset podName t4 s,
      GetPodLogs w clientset podName t4 = (.returned (s, none), t) ∧
      out = "Pod logs:\n" ++ " " ++ s ++ "\n" := by
  obtain ⟨clientset, pod, _, t4, logs, _, _, hlogs, hout⟩ := main_ok_inv w fuel out t h
  exact ⟨clientset, pod.ObjectMeta.Name, t4, logs, hlogs, hout⟩

/-- Witness of C8 amended: the scenario writes "Pod logs:\n hello\n\n". -/
theorem main_output_label_space_logs_witness :
    main scenarioWorld 3 = some (Exit.ok "Pod logs:\n hello\n\n", scenarioTrace) ∧
    ∃ clientset podName t4 s,
      GetPodLogs scenarioWorld clientset podName t4 = (.returned (s, none), scenarioTrace) ∧
      "Pod logs:\n hello\n\n" = "Pod logs:\n" ++ " " ++ s ++ "\n" :=
  ⟨rfl, main_output_label_space_logs scenarioWorld 3 "Pod logs:\n hello\n\n" scenarioTrace rfl⟩

/-- C4: if, starting from trace `t`, the first `k - 1` status queries of
`WaitForPodCompletion` answer with a non-terminal phase and the `k`-th fails
with `e`, then, given at least `k` iterations, `WaitForPodCompletion` returns
`e` after exactly `k` status queries and `k - 1` sleeps, the failing query being
its last call; and when this is the polling phase of a run of `main`, the run
dies of `panic(e)` with the same trace, which holds no log-stream request. -/
theorem poll_error_aborts (w : World) (cs : Clientset) (podName : String) (t : Trace)
    (k fuel : Nat) (e : Error) (hk : 1 ≤ k) (hfuel : k ≤ fuel)
    (hpending : ∀ i, i < k - 1 →
      keepsPolling (w.Get (calls Event.isGet t + i) cs "default" podName) = true)
    (hfail : w.Get (calls Event.isGet t + (k - 1)) cs "default" podName = .error e) :
    WaitForPodCompletion w (some cs) podName fuel t =
        some (.returned (some e),
          t ++ pollRounds podName (k - 1) ++ [Event.get "default" podName]) ∧
      calls Event.isGet (pollRounds podName (k - 1) ++ [Event.get "default" podName]) = k ∧
      calls Event.isSleep (pollRounds podName (k - 1) ++ [Event.get "default" podName]) = k - 1 ∧
      ∀ pod, Submitted w (some cs) pod t → pod.ObjectMeta.Name = podName →
        main w fuel = some (Exit.panic e,
          t ++ pollRounds podName (k - 1) ++ [Event.get "default" podName]) ∧
        calls Event.isStream
          (t ++ pollRounds podName (k - 1) ++ [Event.get "default" podName]) = 0 := by
  have hwait : WaitForPodCompletion w (some cs) podName fuel t =
        some (.returned (some e),
          t ++ pollRounds podName (k - 1) ++ [Event.get "default" podName]) := by
    obtain ⟨f, rfl⟩ : ∃ f, fuel = (f + 1) + (k - 1) := ⟨fuel - k, by omega⟩
    rw [wait_rounds w cs podName (k - 1) (f + 1) t hpending, wait_succ]
    have hc : calls Event.isGet (t ++ pollRounds podName (k - 1)) =
        calls Event.isGet t + (k - 1) := by
      rw [calls_append, calls_get_pollRounds]
    rw [hc, hfail]
  refine ⟨hwait, ?_, ?_, ?_⟩
  · rw [calls_append, calls_get_pollRounds]
    show k - 1 + 1 = k
    omega
  · rw [calls_append, calls_sleep_pollRounds]; rfl
  · intro pod hsub hname
    subst hname
    refine ⟨?_, ?_⟩
    · rw [main_of_submitted w (some cs) pod t hsub fuel, hwait]
    · obtain ⟨evs, cs1, spec, hloc, ht, _⟩ := submitted_trace w (some cs) pod t hsub
      have hpre : ∀ e ∈ mainPrelude w, e.isStream = false := by
        intro e he
        simp only [mainPrelude, List.mem_cons, List.mem_singleton, List.not_mem_nil,
          or_false] at he
        rcases he with rfl | rfl | rfl <;> rfl
      have hr : ∀ n, calls Event.isStream (pollRounds pod.ObjectMeta.Name n) = 0 := by
        intro n
        induction n with
        | zero => rfl
        | succ n ih =>
          simp only [calls, pollRounds] at ih ⊢
          simp [List.countP_cons, Event.isStream, ih]
      rw [ht]
      simp only [calls_append]
      rw [calls_of_all_false _ _ hpre, calls_of_all_false _ _ (fun e he => (hloc e he).2.2.1), hr]
      rfl

/-- Witness of C4: with the answers Running, Running and then an error, the
third query is the last call of the run. -/
theorem poll_error_aborts_witness :
    main (phasesWorld [PodRunning, PodRunning]) 3 =
      some (Exit.panic ⟨"pods not found"⟩,
        scenarioTrace.take 6 ++ pollRounds "python-script-abcde" (3 - 1) ++
          [Event.get "default" "python-script-abcde"]) ∧
    calls Event.isStream (scenarioTrace.take 6 ++ pollRounds "python-script-abcde" (3 - 1) ++
          [Event.get "default" "python-script-abcde"]) = 0 :=
  (poll_error_aborts (phasesWorld [PodRunning, PodRunning]) ⟨0⟩ "python-script-abcde"
    (scenarioTrace.take 6) 3 3 ⟨"pods not found"⟩ (by decide) (by decide) (by decide) rfl).2.2.2
    { ObjectMeta := { Name := "python-script-abcde", GenerateName := "python-script-" }
      Spec := (podDefinition "/tmp/script.py" "/tmp/script.py").Spec
      Status := { Phase := "" } }
    ⟨"/tmp", rfl, rfl, rfl⟩ rfl

/-- C5: in a run of `main` that reaches the pod-creation call (the working
directory is found, line 122 returns, and inside `CreatePythonPod` the config
is loaded, the clientset is built and the script path is resolved to `a`), if
the creation call fails with `e`, then `CreatePythonPod` returns a nil pod and
`e`, the run dies of `panic(e)`, and the trace of the run holds that one
creation call, no status query and no log-stream request. -/
theorem creation_error_aborts (w : World) (currentDir : String) (clientset : Option Clientset)
    (config : Config) (cs : Clientset) (a : String) (t3 : Trace) (e : Error) (fuel : Nat)
    (hwd : w.Getwd 0 = .ok currentDir)
    (hmain : mainClientset w (w.BuildConfigFromFlags 0 "" (mainKubeconfig w)).toOption
      [Event.getwd, Event.buildConfig "" (mainKubeconfig w)] = some clientset)
    (hcfg : w.BuildConfigFromFlags 1 "" (mainKubeconfig w) = .ok config)
    (hnew : w.NewForConfig 1 config = .ok cs)
    (habs : Abs w (Join [currentDir, "script.py"])
      (mainPrelude w ++ [Event.buildConfig "" (mainKubeconfig w)] ++
        [Event.newForConfig (some config)]) = ((a, none), t3))
    (hcreate : w.Create cs "default" (podDefinition (Join [currentDir, "script.py"]) a) =
      .error e) :
    CreatePythonPod w (mainKubeconfig w) (Join [currentDir, "script.py"]) (mainPrelude w) =
        ((none, some e),
          t3 ++ [Event.create "default" (podDefinition (Join [currentDir, "script.py"]) a)]) ∧
      main w fuel = some (Exit.panic e,
          t3 ++ [Event.create "default" (podDefinition (Join [currentDir, "script.py"]) a)]) ∧
      calls Event.isCreate
        (t3 ++ [Event.create "default" (podDefinition (Join [currentDir, "script.py"]) a)]) = 1 ∧
      calls Event.isGet
        (t3 ++ [Event.create "default" (podDefinition (Join [currentDir, "script.py"]) a)]) = 0 ∧
      calls Event.isStream
        (t3 ++ [Event.create "default" (podDefinition (Join [currentDir, "script.py"]) a)]) = 0 := by
  have hi1 : calls Event.isBuildConfig (mainPrelude w) = 1 := rfl
  have hi2 : calls Event.isNewForConfig
      (mainPrelude w ++ [Event.buildConfig "" (mainKubeconfig w)]) = 1 := rfl
  have hpod : CreatePythonPod w (mainKubeconfig w) (Join [currentDir, "script.py"])
      (mainPrelude w) = ((none, some e),
        t3 ++ [Event.create "default" (podDefinition (Join [currentDir, "script.py"]) a)]) := by
    simp only [CreatePythonPod, hi1, hi2, hcfg, hnew, habs, hcreate]
  obtain ⟨evs, ht3, hgetwd⟩ := Abs_trace w (Join [currentDir, "script.py"])
    (mainPrelude w ++ [Event.buildConfig "" (mainKubeconfig w)] ++
      [Event.newForConfig (some config)])
  rw [habs] at ht3
  simp only at ht3
  have hloc : ∀ x ∈ t3, Local x := by
    intro x hx
    rw [ht3] at hx
    simp only [mainPrelude, List.mem_append, List.mem_cons, List.mem_singleton,
      List.not_mem_nil, or_false] at hx
    rcases hx with (((rfl | rfl | rfl) | rfl) | rfl) | hx
    · exact ⟨rfl, rfl, rfl, rfl⟩
    · exact ⟨rfl, rfl, rfl, rfl⟩
    · exact ⟨rfl, rfl, rfl, rfl⟩
    · exact ⟨rfl, rfl, rfl, rfl⟩
    · exact ⟨rfl, rfl, rfl, rfl⟩
    · rw [hgetwd x hx]; exact ⟨rfl, rfl, rfl, rfl⟩
  refine ⟨hpod, ?_, ?_, ?_, ?_⟩
  · have hpod1 := hpod
    simp only [mainKubeconfig, mainPrelude] at hpod1 hmain
    simp only [main, hwd, hmain, hpod1]
  · rw [calls_append, calls_of_all_false _ _ (fun x hx => (hloc x hx).1)]; rfl
  · rw [calls_append, calls_of_all_false _ _ (fun x hx => (hloc x hx).2.1)]; rfl
  · rw [calls_append, calls_of_all_false _ _ (fun x hx => (hloc x hx).2.2.1)]; rfl

/-- Witness of C5: a cluster that rejects the pod with "quota exceeded". -/
theorem creation_error_aborts_witness :
    CreatePythonPod (rejectingWorld ⟨"quota exceeded"⟩) "/home/u/.kube/config" "/tmp/script.py"
        (scenarioTrace.take 3) = ((none, some ⟨"quota exceeded"⟩), scenarioTrace.take 6) ∧
      main (rejectingWorld ⟨"quota exceeded"⟩) 3 =
        some (Exit.panic ⟨"quota exceeded"⟩, scenarioTrace.take 6) ∧
      calls Event.isCreate (scenarioTrace.take 6) = 1 ∧
      calls Event.isGet (scenarioTrace.take 6) = 0 ∧
      calls Event.isStream (scenarioTrace.take 6) = 0 :=
  creation_error_aborts (rejectingWorld ⟨"quota exceeded"⟩) "/tmp" (some ⟨0⟩) ⟨0⟩ ⟨0⟩
    "/tmp/script.py" (scenarioTrace.take 5) ⟨"quota exceeded"⟩ 3 rfl rfl rfl rfl rfl rfl

/-- C9, evaluated where it fails: without a readable kubeconfig, and with a
`kubernetes.NewForConfig` that dereferences its argument, `main` dies at line
122 of a nil pointer dereference, for line 121 discards the error and leaves
`config` nil; the load error is not surfaced and `CreatePythonPod`, which would
return it with a nil pod, is never called.  No call reaches the cluster. -/
theorem main_discards_config_error (fuel : Nat) :
    main missingKubeconfigWorld fuel =
        some (Exit.nilDeref,
          [Event.getwd, Event.buildConfig "" "/home/u/.kube/config", Event.newForConfig none]) ∧
      (CreatePythonPod missingKubeconfigWorld "/home/u/.kube/config" "/tmp/script.py" []).1 =
        (none, some ⟨"stat /home/u/.kube/config: no such file or directory"⟩) :=
  ⟨rfl, rfl⟩

/-- C3: for every absolute script path `p`, once the config is loaded and the
clientset built, `CreatePythonPod` resolves `p` without consulting the working
directory and submits, in the namespace "default", a pod specification whose
only volume is the host-path volume `script-volume` on the directory containing
`p` - the directory of the cleaned path, which is the parent `p/..` in clean
form and is `Dir p` itself when the last element of `p` is a name - and whose
only container has the command `python /scripts/<base name of p>` and mounts
that volume at `/scripts`. -/
theorem CreatePythonPod_mounts_script_directory (w : World) (kubeconfigPath p : String)
    (t : Trace) (config : Config) (cs : Clientset) (hp : IsAbs p = true)
    (hcfg : w.BuildConfigFromFlags (calls Event.isBuildConfig t) "" kubeconfigPath = .ok config)
    (hnew : w.NewForConfig
      (calls Event.isNewForConfig (t ++ [Event.buildConfig "" kubeconfigPath])) config = .ok cs) :
    (CreatePythonPod w kubeconfigPath p t).2 =
        t ++ [Event.buildConfig "" kubeconfigPath] ++ [Event.newForConfig (some config)] ++
          [Event.create "default" (podDefinition p (Clean p))] ∧
      (podDefinition p (Clean p)).Spec.Volumes =
        [{ Name := "script-volume"
           VolumeSource := { HostPath := some { Path := Dir (Clean p) } } }] ∧
      (podDefinition p (Clean p)).Spec.Containers =
        [{ Name := "python"
           Image := "python:3.8"
           Command := ["python", "/scripts/" ++ Base p]
           VolumeMounts := [{ Name := "script-volume", MountPath := "/scripts" }] }] ∧
      Dir (Clean p) = Clean (p ++ "/..") ∧
      (IsName (lastElem p.data) → Dir (Clean p) = Dir p) := by
  refine ⟨?_, rfl, rfl, Dir_Clean_abs p hp, fun h => (Clean_parts_of_name p h).1⟩
  have habs : Abs w p (t ++ [Event.buildConfig "" kubeconfigPath] ++
      [Event.newForConfig (some config)]) =
      ((Clean p, none), t ++ [Event.buildConfig "" kubeconfigPath] ++
        [Event.newForConfig (some config)]) := by
    unfold Abs
    rw [if_pos hp]
  simp only [CreatePythonPod, hcfg, hnew, habs]
  cases w.Create cs "default" (podDefinition p (Clean p)) <;> rfl

/-- Witness of C3: `/home/u/project/script.py` gives the host path
`/home/u/project` and the command `python /scripts/script.py`. -/
theorem CreatePythonPod_mounts_script_directory_witness :
    Dir (Clean "/home/u/project/script.py") = "/home/u/project" ∧
      "/scripts/" ++ Base "/home/u/project/script.py" = "/scripts/script.py" ∧
      (CreatePythonPod scenarioWorld "/home/u/.kube/config" "/home/u/project/script.py" []).2 =
        [] ++ [Event.buildConfig "" "/home/u/.kube/config"] ++ [Event.newForConfig (some ⟨0⟩)] ++
          [Event.create "default"
            (podDefinition "/home/u/project/script.py" (Clean "/home/u/project/script.py"))] :=
  ⟨by decide, by decide,
    (CreatePythonPod_mounts_script_directory scenarioWorld "/home/u/.kube/config"
      "/home/u/project/script.py" [] ⟨0⟩ ⟨0⟩ (by decide) rfl rfl).1⟩

/-- C10, as stated, fails: for the absolute path `/home/u/project/..` the
mounted directory is `/home` and the base name in the command is `..`, which
join to `/` and not to the resolved path `/home/u`; for the relative path `.`
in the working directory `/tmp` the mounted directory is `/` and the base name
is `.`, which join to `/` and not to `/tmp`. -/
theorem join_dir_base_not_abs :
    Abs scenarioWorld "/home/u/project/.." [] = (("/home/u", none), []) ∧
      Join [Dir "/home/u", Base "/home/u/project/.."] = "/" ∧
      Abs scenarioWorld "." [] = (("/tmp", none), [Event.getwd]) ∧
      Join [Dir "/tmp", Base "."] = "/" ∧
      Join [Dir "/home/u", Base "/home/u/project/.."] ≠ "/home/u" ∧
      Join [Dir "/tmp", Base "."] ≠ "/tmp" := by
  decide

/-- C10, amended: let the working directory be absolute and let the script
path `p`, absolute or relative, resolve to `a`.  If the base name of `p` is the
base name of `a`, then joining the mounted directory `Dir a` with the base name
used in the command, `Base p`, yields `a` again; and the base names agree
whenever the last element of `p` (the bytes after its last separator) is a
name, that is not empty, not `.` and not `..`. -/
theorem join_dir_base_of_name (w : World) (p : String) (t : Trace) (a : String) (t1 : Trace)
    (hwd : ∀ i wd, w.Getwd i = .ok wd → IsAbs wd = true)
    (habs : Abs w p t = ((a, none), t1)) :
    (Base p = Base a → Join [Dir a, Base p] = a) ∧
      (IsName (lastElem p.data) → Base p = Base a) := by
  have hclean : ∃ y, a = Clean y ∧ lastElem y.data = lastElem p.data := by
    rcases Abs_eq_Clean w p t a t1 hwd habs with h | ⟨wd, h⟩
    · exact ⟨p, h, rfl⟩
    · refine ⟨wd ++ "/" ++ p, h, ?_⟩
      rw [String.data_append, String.data_append, List.append_assoc]
      exact lastElem_append wd.data p.data
  obtain ⟨y, hy, hlast⟩ := hclean
  refine ⟨?_, ?_⟩
  · intro hb
    rw [hb, hy]
    exact Join_Dir_Base_Clean y
  · intro hname
    have hname1 : IsName (lastElem y.data) := by rw [hlast]; exact hname
    rw [hy, (Clean_parts_of_name y hname1).2, Base_of_name y hname1, Base_of_name p hname, hlast]

/-- Witness of C10 amended: the relative path `script.py` in the working
directory `/tmp`. -/
theorem join_dir_base_of_name_witness :
    Abs scenarioWorld "script.py" [] = (("/tmp/script.py", none), [Event.getwd]) ∧
      Base "script.py" = Base "/tmp/script.py" ∧
      Join [Dir "/tmp/script.py", Base "script.py"] = "/tmp/script.py" :=
  ⟨by decide, by decide,
    (join_dir_base_of_name scenarioWorld "script.py" [] "/tmp/script.py" [Event.getwd]
      (fun i wd h => by cases h; rfl) (by decide)).1
      ((join_dir_base_of_name scenarioWorld "script.py" [] "/tmp/script.py" [Event.getwd]
        (fun i wd h => by cases h; rfl) (by decide)).2 (by decide))⟩

end PodRunner
